import Mathlib

/-!
# Verification of the ReDune compression library (`src/lib/compression.py`)

A shallow embedding of the HSQ (LZ77-variant) codec and the F7 RLE codec,
together with proofs and refutations of the specified properties.

Byte buffers are modelled as `List Nat` whose entries are below 256.
Python exceptions are modelled by `Except HsqErr`.  Python's negative list
indexing (which silently wraps to the end of the list) is modelled by
`pyGet`.  Loops are modelled by fuel-indexed recursion; every loop of the
source advances its cursor by at least one byte per iteration, so a fuel of
`length + 2` never runs out before the loop's own exit conditions fire.
-/

namespace ReDune

/-- A byte buffer: every entry is an 8-bit value. -/
def Wf (l : List Nat) : Prop := ∀ x ∈ l, x < 256

/-- Errors raised by the codec (`ValueError` sites and Python `IndexError`). -/
inductive HsqErr where
  | tooShort   : HsqErr   -- "HSQ data too short"
  | truncated  : HsqErr   -- "HSQ: unexpected end at offset"
  | indexError : HsqErr   -- Python IndexError from `out[dst + offset + i]`
  | outOfFuel  : HsqErr   -- fuel exhaustion (unreachable for real fuel values)
  deriving DecidableEq, Repr

/-- Python `struct.unpack_from('<H', data, i)`: little-endian 16-bit read. -/
def readLE16 (d : List Nat) (i : Nat) : Nat :=
  d.getD i 0 + 256 * d.getD (i + 1) 0

/-- Python list indexing with negative-index wrap-around:
`l[i]` is `l[len l + i]` for `-len l ≤ i < 0`, and an `IndexError`
(modelled by `none`) outside `[-len l, len l)`. -/
def pyGet (l : List Nat) (i : Int) : Option Nat :=
  if 0 ≤ i then
    if i < (l.length : Int) then some (l.getD i.toNat 0) else none
  else
    if 0 ≤ i + (l.length : Int) then some (l.getD (i + (l.length : Int)).toNat 0)
    else none

/-! ## F7 RLE codec (`f7_decompress` / `f7_compress`) -/

/-- Main scan loop of `f7_decompress`.  The Python loop condition
`i <= len(data) - 3` (with Python's possibly-negative right-hand side) is
`i + 3 ≤ data.length`, and the `i == end` test is `i + 3 = data.length`.
The final `while i < len(data)` tail-copy loop is `out ++ data.drop i`. -/
def f7loop (data : List Nat) : Nat → Nat → List Nat → List Nat
  | 0, _, out => out
  | fuel + 1, i, out =>
    if i + 3 ≤ data.length then
      let b0 := data.getD i 0
      let b1 := data.getD (i + 1) 0
      let b2 := data.getD (i + 2) 0
      if b0 = 0xF7 ∧ b1 = 0x01 ∧ b2 = 0xF7 then
        f7loop data fuel (i + 3) (out ++ [0xF7])
      else if b0 = 0xF7 ∧ b1 > 2 then
        f7loop data fuel (i + 3) (out ++ List.replicate b1 b2)
      else
        f7loop data fuel (i + 1)
          ((out ++ [b0]) ++ if i + 3 = data.length then [b1, b2] else [])
    else
      out ++ data.drop i

/-- Python `f7_decompress(data)`. -/
def f7_decompress (data : List Nat) : List Nat :=
  f7loop data (data.length + 1) 0 []

/-- The run-counting loop of `f7_compress`:
`run = 1; while i + run < len(data) and data[i+run] == b and run < 255`. -/
def runGo (data : List Nat) (i b : Nat) : Nat → Nat → Nat
  | run, 0 => run
  | run, fuel + 1 =>
    if i + run < data.length ∧ data.getD (i + run) 0 = b ∧ run < 255 then
      runGo data i b (run + 1) fuel
    else run

/-- Main loop of `f7_compress`. -/
def f7comploop (data : List Nat) : Nat → Nat → List Nat → List Nat
  | 0, _, out => out
  | fuel + 1, i, out =>
    if i < data.length then
      let b := data.getD i 0
      if b = 0xF7 then
        f7comploop data fuel (i + 1) (out ++ [0xF7, 0x01, 0xF7])
      else
        let run := runGo data i b 1 255
        if run > 3 then
          f7comploop data fuel (i + run) (out ++ [0xF7, run, b])
        else
          f7comploop data fuel (i + 1) (out ++ [b])
    else out

/-- Python `f7_compress(data)`. -/
def f7_compress (data : List Nat) : List Nat :=
  f7comploop data (data.length + 1) 0 []

/-! ## HSQ decoder (`hsq_decompress`) -/

/-- Python `read_u8`: raises on `pos >= len(data)`. -/
def read_u8 (d : List Nat) (pos : Nat) : Except HsqErr (Nat × Nat) :=
  if pos ≥ d.length then .error .truncated
  else .ok (d.getD pos 0, pos + 1)

/-- Python `read_u16`: little-endian word; raises on `pos + 1 >= len(data)`. -/
def read_u16 (d : List Nat) (pos : Nat) : Except HsqErr (Nat × Nat) :=
  if pos + 1 ≥ d.length then .error .truncated
  else .ok (d.getD pos 0 + 256 * d.getD (pos + 1) 0, pos + 2)

/-- Python `get_bit`: returns the low bit of the 16-bit queue and right-shifts it;
when the shifted queue reaches 0, refills from the next little-endian word
`w`, returning `w`'s low bit and setting the queue to `0x8000 ||| (w >>> 1)`.
Result: `(bit, pos, queue)`. -/
def get_bit (d : List Nat) (pos queue : Nat) : Except HsqErr (Nat × Nat × Nat) :=
  let bit := queue &&& 1
  let q := queue >>> 1
  if q = 0 then
    match read_u16 d pos with
    | .error e => .error e
    | .ok (w, pos') => .ok (w &&& 1, pos', 0x8000 ||| (w >>> 1))
  else .ok (bit, pos, q)

/-- The back-reference copy loop
`for i in range(count): out.append(out[dst + offset + i])`.
Since `dst + offset + i = len(out) + offset` at each step (where `dst` is
`len(out)` before the loop), each step appends `out[len(out) + offset]`,
with Python's negative-index semantics. -/
def copyN : Nat → List Nat → Int → Except HsqErr (List Nat)
  | 0, out, _ => .ok out
  | k + 1, out, off =>
    match pyGet out ((out.length : Int) + off) with
    | none => .error .indexError
    | some v => copyN k (out ++ [v]) off

/-- The main decode loop of `hsq_decompress` (fuel-indexed; each iteration
advances `pos` by at least one, so fuel `len(data) + 2` never runs out). -/
def decodeLoop (d : List Nat) (size : Nat) :
    Nat → Nat → Nat → List Nat → Except HsqErr (List Nat)
  | 0, _, _, _ => .error .outOfFuel
  | fuel + 1, pos, queue, out =>
    match get_bit d pos queue with
    | .error e => .error e
    | .ok (b, pos, queue) =>
      if b ≠ 0 then
        -- literal byte
        if out.length ≥ size then .ok out
        else
          match read_u8 d pos with
          | .error e => .error e
          | .ok (v, pos) => decodeLoop d size fuel pos queue (out ++ [v])
      else
        match get_bit d pos queue with
        | .error e => .error e
        | .ok (b2, pos, queue) =>
          if b2 ≠ 0 then
            -- long back-reference
            match read_u16 d pos with
            | .error e => .error e
            | .ok (w, pos) =>
              let count := w &&& 0x07
              let offset : Int := ((w >>> 3 : Nat) : Int) - 8192
              if count = 0 then
                match read_u8 d pos with
                | .error e => .error e
                | .ok (count, pos) =>
                  if count = 0 then .ok out  -- EOF
                  else
                    match copyN (count + 2) out offset with
                    | .error e => .error e
                    | .ok out => decodeLoop d size fuel pos queue out
              else
                match copyN (count + 2) out offset with
                | .error e => .error e
                | .ok out => decodeLoop d size fuel pos queue out
          else
            -- short back-reference
            match get_bit d pos queue with
            | .error e => .error e
            | .ok (b0, pos, queue) =>
              match get_bit d pos queue with
              | .error e => .error e
              | .ok (b1, pos, queue) =>
                let count := 2 * b0 + b1
                match read_u8 d pos with
                | .error e => .error e
                | .ok (bb, pos) =>
                  let offset : Int := (bb : Int) - 256
                  match copyN (count + 2) out offset with
                  | .error e => .error e
                  | .ok out => decodeLoop d size fuel pos queue out

/-- Python `hsq_decompress(data)`. -/
def hsq_decompress (data : List Nat) : Except HsqErr (List Nat) :=
  if data.length < 6 then .error .tooShort
  else
    let decomp_size := readLE16 data 0
    let _comp_size := readLE16 data 3  -- read but never used (byte 2, 5 skipped)
    match decodeLoop data decomp_size (data.length + 2) 6 0 [] with
    | .error e => .error e
    | .ok out => .ok (out.take decomp_size)

/-- Python `hsq_get_sizes(data)`: header-only peek. -/
def hsq_get_sizes (data : List Nat) : Except HsqErr (Nat × Nat × Nat) :=
  if data.length < 6 then .error .tooShort
  else .ok (readLE16 data 0, readLE16 data 3, data.getD 2 0)

/-! ## HSQ encoder (`hsq_compress`)

Hash-chain state: `head` maps a hash bucket to the most recent position
with that hash (Python initialises buckets to `-1`, modelled by `none`);
`prev` links each position back to the prior position sharing its hash. -/

structure HState where
  head : Nat → Option Nat
  prev : Nat → Nat

def initH : HState := ⟨fun _ => none, fun _ => 0⟩

/-- Python `hash3(p)`: 15-bit hash of the 3-byte sequence at `p`. -/
def hash3 (data : List Nat) (p : Nat) : Nat :=
  if p + 2 ≥ data.length then 0
  else ((data.getD p 0 <<< 10) ^^^ (data.getD (p + 1) 0 <<< 5) ^^^
        data.getD (p + 2) 0) &&& 32767

/-- Python `ml = 0; while ml < max_len and data[pos+ml] == data[match_pos+ml]: ml += 1`. -/
def mlGo (data : List Nat) (pos mp maxLen : Nat) : Nat → Nat → Nat
  | ml, 0 => ml
  | ml, fuel + 1 =>
    if ml < maxLen ∧ data.getD (pos + ml) 0 = data.getD (mp + ml) 0 then
      mlGo data pos mp maxLen (ml + 1) fuel
    else ml

def matchLen (data : List Nat) (pos mp maxLen : Nat) : Nat :=
  mlGo data pos mp maxLen 0 maxLen

/-- The hash-chain walk (`while match_pos >= min_pos and chain_count < MAX_CHAIN`,
with `MAX_CHAIN = 64` as the `budget`).  Returns `(best_len, best_off)`. -/
def chainWalk (data : List Nat) (prevm : Nat → Nat) (pos minPos maxLen : Nat) :
    Nat → Nat → Nat → Nat → Nat × Nat
  | 0, _, bl, bo => (bl, bo)
  | budget + 1, mp, bl, bo =>
    if mp ≥ minPos then
      let ml := matchLen data pos mp maxLen
      if ml > bl then
        if ml ≥ maxLen then (ml, pos - mp)
        else
          let np := prevm mp
          if np ≥ mp then (ml, pos - mp)
          else chainWalk data prevm pos minPos maxLen budget np ml (pos - mp)
      else
        let np := prevm mp
        if np ≥ mp then (bl, bo)
        else chainWalk data prevm pos minPos maxLen budget np bl bo
    else (bl, bo)

/-- Python `prev[p] = head[h] if head[h] >= 0 else p; head[h] = p`. -/
def insertPos (data : List Nat) (st : HState) (p : Nat) : HState :=
  let h := hash3 data p
  let pv := match st.head h with | some q => q | none => p
  ⟨fun x => if x = h then some p else st.head x,
   fun x => if x = p then pv else st.prev x⟩

/-- Python `for j in range(1, L): if pos + j + 2 < src_len: insert (pos + j)` —
called with `j = 1` and `L - 1` steps remaining. -/
def insertRange (data : List Nat) (pos : Nat) : HState → Nat → Nat → HState
  | st, _, 0 => st
  | st, j, k + 1 =>
    let st' := if pos + j + 2 < data.length then insertPos data st (pos + j) else st
    insertRange data pos st' (j + 1) k

/-- Encoder commands (pre-bitstream). -/
inductive Cmd where
  | literal (b : Nat)
  | short (cb off : Nat)
  | long (w : Nat)
  | longExt (w e : Nat)
  deriving DecidableEq, Repr

/-- The match search at one position (`compression.py` lines 195-225):
walk the hash chain for the best `(length, offset)` and insert the current
position into the chain, all guarded by `pos + 2 < src_len`. -/
def searchStep (data : List Nat) (st : HState) (pos maxLen : Nat) : Nat × Nat × HState :=
  if pos + 2 < data.length then
    let h := hash3 data pos
    let best :=
      match st.head h with
      | none => (0, 0)
      | some mp => chainWalk data st.prev pos (pos - 8192) maxLen 64 mp 0 0
    (best.1, best.2, insertPos data st pos)
  else (0, 0, st)

/-- The greedy matching loop of `hsq_compress` (fuel-indexed; every
iteration advances `pos` by at least 1). -/
def compLoop (data : List Nat) : Nat → Nat → HState → List Cmd → List Cmd
  | 0, _, _, acc => acc
  | fuel + 1, pos, st, acc =>
    if pos < data.length then
      let maxLen := min (data.length - pos) 257
      let s := searchStep data st pos maxLen
      let bl := s.1
      let bo := s.2.1
      let st1 := s.2.2
      if bo ≤ 256 ∧ 2 ≤ bl then
        -- short back-reference (offset -256..-1, length 2..5)
        let useLen := min bl 5
        let countBits := useLen - 2
        let offByte := ((-(bo : Int)) % 256).toNat  -- (-best_off) & 0xFF
        let st2 := insertRange data pos st1 1 (useLen - 1)
        compLoop data fuel (pos + useLen) st2 (acc ++ [.short countBits offByte])
      else if 3 ≤ bl then
        -- long back-reference
        let off13 := (((-(bo : Int)) + 8192) % 8192).toNat -- ((-best_off)+8192) & 0x1FFF
        let cc := bl - 2
        let cmd := if 1 ≤ cc ∧ cc ≤ 7 then Cmd.long (off13 <<< 3 ||| cc)
                   else Cmd.longExt (off13 <<< 3 ||| 0) (cc &&& 0xFF)
        let st2 := insertRange data pos st1 1 (bl - 1)
        compLoop data fuel (pos + bl) st2 (acc ++ [cmd])
      else
        compLoop data fuel (pos + 1) st1 (acc ++ [.literal (data.getD pos 0)])
    else acc

/-! ### Bit writer

Stateful model of the `BitWriter` class: `stream` is the output buffer,
`wordPos` the position of the reserved (back-patched) 16-bit word slot,
`wordBits` the bits accumulated for that slot (low-bit-first). -/

structure BW where
  stream : List Nat
  wordPos : Option Nat
  wordBits : List Nat

/-- Python `word |= (b & 1) << i` accumulated over a bit list, low-bit-first. -/
def bitsVal : List Nat → Nat
  | [] => 0
  | b :: p => (b &&& 1) + 2 * bitsVal p

/-- Python `_flush_word`: back-patch the reserved slot with the accumulated bits
(taking the first 16; padding with zeros does not change the value). -/
def bwFlush (st : BW) : BW :=
  match st.wordPos with
  | none => st
  | some wp =>
    let w := bitsVal (st.wordBits.take 16)
    ⟨(st.stream.set wp (w % 256)).set (wp + 1) (w / 256), none, []⟩

/-- Python `_start_word`: reserve a 2-byte placeholder. -/
def bwStart (st : BW) : BW :=
  ⟨st.stream ++ [0, 0], some st.stream.length, []⟩

def bwWriteBit (st : BW) (b : Nat) : BW :=
  let st := if st.wordPos = none ∨ st.wordBits.length ≥ 16 then bwStart (bwFlush st) else st
  ⟨st.stream, st.wordPos, st.wordBits ++ [b &&& 1]⟩

def bwWriteByte (st : BW) (v : Nat) : BW :=
  ⟨st.stream ++ [v &&& 0xFF], st.wordPos, st.wordBits⟩

def bwWriteWord (st : BW) (w : Nat) : BW :=
  ⟨st.stream ++ [(w &&& 0xFFFF) % 256, (w &&& 0xFFFF) / 256], st.wordPos, st.wordBits⟩

def bwFinish (st : BW) : List Nat := (bwFlush st).stream

/-- The serialization of one command, in the order of the encoder's
`for cmd in commands` loop. -/
inductive Tok where
  | bit (b : Nat)
  | byte (v : Nat)
  | word (w : Nat)
  deriving DecidableEq, Repr

def cmdTokens : Cmd → List Tok
  | .literal b => [.bit 1, .byte b]
  | .short cb off => [.bit 0, .bit 0, .bit ((cb >>> 1) &&& 1), .bit (cb &&& 1), .byte off]
  | .long w => [.bit 0, .bit 1, .word w]
  | .longExt w e => [.bit 0, .bit 1, .word w, .byte e]

def cmdsTokens (cs : List Cmd) : List Tok := (cs.map cmdTokens).flatten

def bwWriteTok (st : BW) : Tok → BW
  | .bit b => bwWriteBit st b
  | .byte v => bwWriteByte st v
  | .word w => bwWriteWord st w

def bwRun (toks : List Tok) : List Nat :=
  bwFinish (toks.foldl bwWriteTok ⟨[], none, []⟩)

/-- Header checksum: `sum of 6 header bytes ≡ 0xAB (mod 256)`; byte 2 is 0, byte 5 solves
the checksum (`(0xAB - h0 - h1 - h2 - h3 - h4) & 0xFF` on Python ints). -/
def hsqHeader (decompSize compSize : Nat) : List Nat :=
  let h0 := (decompSize &&& 0xFFFF) % 256
  let h1 := (decompSize &&& 0xFFFF) / 256
  let h2 : Nat := 0
  let h3 := (compSize &&& 0xFFFF) % 256
  let h4 := (compSize &&& 0xFFFF) / 256
  let h5 := ((((0xAB : Int) - h0 - h1 - h2 - h3 - h4) % 256)).toNat
  [h0, h1, h2, h3, h4, h5]

/-- The command list produced by the matching loop, with the EOF marker
(`('long_ext', 0, 0)`) appended. -/
def hsqCmds (data : List Nat) : List Cmd :=
  compLoop data (data.length + 1) 0 initH [] ++ [.longExt 0 0]

/-- The compressed body: for empty data the hard-coded
`EOF (bit word 0x0002, ref word 0x0000, count byte 0)`, otherwise the
serialized command stream. -/
def hsqBody (data : List Nat) : List Nat :=
  if data.length = 0 then [0x02, 0x00, 0x00, 0x00, 0x00]
  else bwRun (cmdsTokens (hsqCmds data))

/-- Python `hsq_compress(data)`.  Note there is no size check anywhere: oversized
lengths simply wrap in the header fields.  (For empty data the Python code
builds the same header with `decomp_size = 0 = len(data)`.) -/
def hsq_compress (data : List Nat) : List Nat :=
  hsqHeader data.length (6 + (hsqBody data).length) ++ hsqBody data

/-! ## Structural view of the bit writer

`pack` is a recursion-friendly description of the stream the `BitWriter`
produces: bytes written with no open word pass through; a bit reserves a
16-bit little-endian word collecting that bit, the next 15 bits, and every
byte written while the word is open (those bytes land after the word slot).
`bwRun_eq_pack` below proves it agrees with the stateful writer. -/

/-- Split off the current word group: collect up to `k` more bits and every
byte up to (but excluding) the next bit beyond the `k` budget.  Returns
`(bits (masked), emitted bytes, rest)`. -/
def groupSplit : Nat → List Tok → List Nat × List Nat × List Tok
  | _, [] => ([], [], [])
  | k, .byte v :: T =>
    let g := groupSplit k T
    (g.1, (v &&& 0xFF) :: g.2.1, g.2.2)
  | k, .word w :: T =>
    let g := groupSplit k T
    (g.1, (w &&& 0xFFFF) % 256 :: (w &&& 0xFFFF) / 256 :: g.2.1, g.2.2)
  | 0, .bit b :: T => ([], [], .bit b :: T)
  | k + 1, .bit b :: T =>
    let g := groupSplit k T
    ((b &&& 1) :: g.1, g.2.1, g.2.2)

/-- The two little-endian bytes of a 16-bit word value. -/
def wordBytes (w : Nat) : List Nat := [w % 256, w / 256]

theorem groupSplit_rest_length : ∀ (k : Nat) (T : List Tok),
    (groupSplit k T).2.2.length ≤ T.length := by
  intro k T
  induction T generalizing k with
  | nil => simp [groupSplit]
  | cons t T ih =>
    cases t with
    | byte v => simpa [groupSplit] using Nat.le_succ_of_le (ih k)
    | word w => simpa [groupSplit] using Nat.le_succ_of_le (ih k)
    | bit b =>
      cases k with
      | zero => simp [groupSplit]
      | succ k => simpa [groupSplit] using Nat.le_succ_of_le (ih k)

/-- The stream laid out by the `BitWriter`, structurally. -/
def pack : List Tok → List Nat
  | [] => []
  | .byte v :: T => (v &&& 0xFF) :: pack T
  | .word w :: T => (w &&& 0xFFFF) % 256 :: (w &&& 0xFFFF) / 256 :: pack T
  | .bit b :: T =>
    let g := groupSplit 15 T
    wordBytes (bitsVal ((b &&& 1) :: g.1)) ++ g.2.1 ++ pack g.2.2
termination_by T => T.length
decreasing_by
  all_goals simp only [List.length_cons]
  · omega
  · omega
  · exact Nat.lt_succ_of_le (groupSplit_rest_length 15 T)

/-- The stream suffix the decoder still has to read, given that the
`pending` bits (the data bits left in its queue below the sentinel) were
already consumed from the current word.  `none` encodes a mismatch that
never arises for a writer-produced stream. -/
def skipPack : List Nat → List Tok → Option (List Nat)
  | p, .byte v :: T => ((v &&& 0xFF) :: ·) <$> skipPack p T
  | p, .word w :: T =>
    ((w &&& 0xFFFF) % 256 :: (w &&& 0xFFFF) / 256 :: ·) <$> skipPack p T
  | [], T => some (pack T)
  | b :: p, .bit b' :: T => if b = b' &&& 1 then skipPack p T else none
  | b :: p, [] => if b = 0 then skipPack p [] else none

/-- The decoder's queue value corresponding to pending bit list `p`:
the bits low-first, then the sentinel 1-bit directly above them. -/
def qval (p : List Nat) : Nat := bitsVal p + 2 ^ p.length

/-- The decoder-state invariant tying the remaining token stream to a
concrete buffer position and queue value. -/
def Inv (T : List Tok) (d : List Nat) (pos queue : Nat) : Prop :=
  ∃ p : List Nat, p.length ≤ 15 ∧ (queue = qval p ∨ (p = [] ∧ queue = 0)) ∧
    skipPack p T = some (d.drop pos)

/-- Well-formed command sequences: each command carries the exact wire
encoding the encoder produces for a genuine match of length `L` at
backward distance `σ` from position `pos` of `data`, and the commands
advance `pos` to exactly `data.length`. -/
inductive CmdChain (data : List Nat) : Nat → List Cmd → Prop
  | nil : CmdChain data data.length []
  | lit {pos : Nat} {T : List Cmd} :
      pos < data.length → data.getD pos 0 < 256 →
      CmdChain data (pos + 1) T →
      CmdChain data pos (.literal (data.getD pos 0) :: T)
  | short {pos σ L : Nat} {T : List Cmd} :
      1 ≤ σ → σ ≤ 256 → σ ≤ pos → 2 ≤ L → L ≤ 5 → pos + L ≤ data.length →
      (∀ i, i < L → data.getD (pos + i) 0 = data.getD (pos - σ + i) 0) →
      CmdChain data (pos + L) T →
      CmdChain data pos (.short (L - 2) ((-(σ : Int) % 256).toNat) :: T)
  | long {pos σ L : Nat} {T : List Cmd} :
      1 ≤ σ → σ ≤ 8192 → σ ≤ pos → 3 ≤ L → L - 2 ≤ 7 → pos + L ≤ data.length →
      (∀ i, i < L → data.getD (pos + i) 0 = data.getD (pos - σ + i) 0) →
      CmdChain data (pos + L) T →
      CmdChain data pos
        (.long ((((-(σ : Int) + 8192) % 8192).toNat <<< 3) ||| (L - 2)) :: T)
  | longExt {pos σ L : Nat} {T : List Cmd} :
      1 ≤ σ → σ ≤ 8192 → σ ≤ pos → 8 ≤ L - 2 → L - 2 ≤ 255 → pos + L ≤ data.length →
      (∀ i, i < L → data.getD (pos + i) 0 = data.getD (pos - σ + i) 0) →
      CmdChain data (pos + L) T →
      CmdChain data pos
        (.longExt ((((-(σ : Int) + 8192) % 8192).toNat <<< 3) ||| 0) (L - 2) :: T)

/-- The property of a `(best_len, best_off)` pair during the chain walk. -/
def BestProp (data : List Nat) (pos maxLen bl bo : Nat) : Prop :=
  (bl = 0 ∧ bo = 0) ∨
  (1 ≤ bo ∧ bo ≤ 8192 ∧ bo ≤ pos ∧ bl ≤ maxLen ∧
    ∀ j, j < bl → data.getD (pos + j) 0 = data.getD (pos - bo + j) 0)

/-- All hash-bucket heads point below `B`. -/
def HeadLt (st : HState) (B : Nat) : Prop :=
  ∀ h q, st.head h = some q → q < B

/-- Number of raw (non-bit-word) bytes a token list emits. -/
def tokByteCount (T : List Tok) : Nat :=
  (T.map fun t => match t with | .bit _ => 0 | .byte _ => 1 | .word _ => 2).sum

/-! ## Helper lemmas -/

theorem lor_pow_add {k : Nat} (a c : Nat) (h : c < 2 ^ k) :
    a <<< k ||| c = 2 ^ k * a + c := by
  rw [Nat.shiftLeft_eq, Nat.mul_comm a (2 ^ k), ← Nat.mul_add_lt_is_or h]

theorem lor_32768 (y : Nat) (h : y < 32768) : 0x8000 ||| y = 32768 + y := by
  have h15 : y < 2 ^ 15 := by norm_num at *; omega
  have := (Nat.mul_add_lt_is_or (i := 15) h15 1).symm
  simpa using this

theorem and_65535 (x : Nat) : x &&& 65535 = x % 65536 := by
  have : (65535 : Nat) = 2 ^ 16 - 1 := by norm_num
  rw [this, Nat.and_pow_two_sub_one_eq_mod]

theorem hsqHeader_length (a b : Nat) : (hsqHeader a b).length = 6 := rfl

/-! ### Bit values and the writer/`pack` equivalence -/

theorem bitsVal_lt : ∀ l : List Nat, bitsVal l < 2 ^ l.length := by
  intro l
  induction l with
  | nil => simp [bitsVal]
  | cons b l ih =>
    have hb : b &&& 1 < 2 := by
      rw [Nat.and_one_is_mod]; omega
    simp only [bitsVal, List.length_cons, pow_succ]
    omega

theorem bitsVal_append : ∀ l1 l2 : List Nat,
    bitsVal (l1 ++ l2) = bitsVal l1 + 2 ^ l1.length * bitsVal l2 := by
  intro l1 l2
  induction l1 with
  | nil => simp [bitsVal]
  | cons b l ih =>
    show (b &&& 1) + 2 * bitsVal (l ++ l2) = _
    rw [ih]
    simp only [bitsVal, List.length_cons, pow_succ]
    ring

theorem bitsVal_replicate_zero : ∀ n, bitsVal (List.replicate n 0) = 0 := by
  intro n
  induction n with
  | zero => rfl
  | succ n ih => simp [List.replicate_succ, bitsVal, ih]

theorem set_append_cons (l1 : List Nat) (a : Nat) (l2 : List Nat) (x : Nat) :
    (l1 ++ a :: l2).set l1.length x = l1 ++ x :: l2 := by
  induction l1 with
  | nil => rfl
  | cons c l ih => simp [List.set, ih]

theorem set2_append_cons (l1 : List Nat) (a b : Nat) (l2 : List Nat) (x y : Nat) :
    ((l1 ++ a :: b :: l2).set l1.length x).set (l1.length + 1) y =
      l1 ++ x :: y :: l2 := by
  rw [set_append_cons]
  have h1 : l1 ++ x :: b :: l2 = (l1 ++ [x]) ++ b :: l2 := by simp
  have h2 : l1.length + 1 = (l1 ++ [x]).length := by simp
  rw [h1, h2, set_append_cons]
  simp

theorem set2_append (l1 : List Nat) (a b : Nat) (l2 : List Nat) (x y : Nat) :
    ((l1 ++ [a, b] ++ l2).set l1.length x).set (l1.length + 1) y =
      l1 ++ [x, y] ++ l2 := by
  have h := set2_append_cons l1 a b l2 x y
  simpa using h

theorem groupSplit_bits_le : ∀ (T : List Tok) (k : Nat),
    (groupSplit k T).1.length ≤ k := by
  intro T
  induction T with
  | nil => intro k; simp [groupSplit]
  | cons t T ih =>
    intro k
    cases t with
    | byte v => simpa [groupSplit] using ih k
    | word w => simpa [groupSplit] using ih k
    | bit b =>
      cases k with
      | zero => simp [groupSplit]
      | succ k => simpa [groupSplit, Nat.succ_le_succ_iff] using ih k

theorem bwFold_group : ∀ (T : List Tok) (s0 bytes bits : List Nat),
    1 ≤ bits.length → bits.length ≤ 16 →
    bwFinish (List.foldl bwWriteTok ⟨s0 ++ [0, 0] ++ bytes, some s0.length, bits⟩ T) =
      s0 ++ wordBytes (bitsVal (bits ++ (groupSplit (16 - bits.length) T).1)) ++
        (bytes ++ (groupSplit (16 - bits.length) T).2.1) ++
        pack (groupSplit (16 - bits.length) T).2.2 := by
  intro T
  induction T with
  | nil =>
    intro s0 bytes bits h1 h16
    simp only [List.foldl, bwFinish, bwFlush, groupSplit, List.append_nil, pack, wordBytes]
    rw [List.take_of_length_le h16]
    exact set2_append s0 0 0 bytes _ _
  | cons t T ih =>
    intro s0 bytes bits h1 h16
    cases t with
    | byte v =>
      have : bwWriteTok ⟨s0 ++ [0, 0] ++ bytes, some s0.length, bits⟩ (.byte v) =
          ⟨s0 ++ [0, 0] ++ (bytes ++ [v &&& 0xFF]), some s0.length, bits⟩ := by
        simp [bwWriteTok, bwWriteByte]
      rw [List.foldl_cons, this, ih s0 (bytes ++ [v &&& 0xFF]) bits h1 h16]
      simp [groupSplit]
    | word w =>
      have : bwWriteTok ⟨s0 ++ [0, 0] ++ bytes, some s0.length, bits⟩ (.word w) =
          ⟨s0 ++ [0, 0] ++ (bytes ++ [(w &&& 0xFFFF) % 256, (w &&& 0xFFFF) / 256]),
           some s0.length, bits⟩ := by
        simp [bwWriteTok, bwWriteWord]
      rw [List.foldl_cons, this, ih s0 _ bits h1 h16]
      simp [groupSplit]
    | bit b =>
      by_cases hfull : bits.length = 16
      · -- flush and start a new word
        have hflush : ((s0 ++ [0, 0] ++ bytes).set s0.length (bitsVal bits % 256)).set
              (s0.length + 1) (bitsVal bits / 256) =
            s0 ++ wordBytes (bitsVal bits) ++ bytes := set2_append s0 0 0 bytes _ _
        have hstep : bwWriteTok ⟨s0 ++ [0, 0] ++ bytes, some s0.length, bits⟩ (.bit b) =
            ⟨(s0 ++ wordBytes (bitsVal bits) ++ bytes) ++ [0, 0] ++ [],
             some (s0 ++ wordBytes (bitsVal bits) ++ bytes).length, [b &&& 1]⟩ := by
          simp only [bwWriteTok, bwWriteBit, bwFlush, bwStart]
          rw [if_pos (Or.inr (by omega))]
          simp only [List.take_of_length_le (le_of_eq hfull), hflush, List.append_nil,
            List.nil_append]
        rw [List.foldl_cons, hstep, ih _ [] [b &&& 1] (by simp) (by simp)]
        have h0 : 16 - bits.length = 0 := by omega
        simp only [h0, groupSplit, List.append_nil, List.length_singleton]
        rw [pack]
        simp only [List.singleton_append, List.append_assoc, List.nil_append]
      · -- append the bit to the open word
        have hlt : bits.length < 16 := by omega
        have hstep : bwWriteTok ⟨s0 ++ [0, 0] ++ bytes, some s0.length, bits⟩ (.bit b) =
            ⟨s0 ++ [0, 0] ++ bytes, some s0.length, bits ++ [b &&& 1]⟩ := by
          simp only [bwWriteTok, bwWriteBit]
          rw [if_neg (by simp; omega)]
        rw [List.foldl_cons, hstep, ih s0 bytes (bits ++ [b &&& 1]) (by simp) (by simp; omega)]
        have hk : 16 - bits.length = (16 - (bits ++ [b &&& 1]).length) + 1 := by
          simp; omega
        rw [hk]
        simp only [groupSplit, List.cons_append, List.nil_append, List.append_assoc]

theorem bwFold_none : ∀ (T : List Tok) (s : List Nat),
    bwFinish (List.foldl bwWriteTok ⟨s, none, []⟩ T) = s ++ pack T := by
  intro T
  induction T with
  | nil => intro s; simp [List.foldl, bwFinish, bwFlush, pack]
  | cons t T ih =>
    intro s
    cases t with
    | byte v =>
      have : bwWriteTok ⟨s, none, []⟩ (.byte v) = ⟨s ++ [v &&& 0xFF], none, []⟩ := by
        simp [bwWriteTok, bwWriteByte]
      rw [List.foldl_cons, this, ih]
      simp [pack]
    | word w =>
      have : bwWriteTok ⟨s, none, []⟩ (.word w) =
          ⟨s ++ [(w &&& 0xFFFF) % 256, (w &&& 0xFFFF) / 256], none, []⟩ := by
        simp [bwWriteTok, bwWriteWord]
      rw [List.foldl_cons, this, ih]
      simp [pack]
    | bit b =>
      have hstep : bwWriteTok ⟨s, none, []⟩ (.bit b) =
          ⟨s ++ [0, 0] ++ [], some s.length, [b &&& 1]⟩ := by
        simp [bwWriteTok, bwWriteBit, bwFlush, bwStart]
      rw [List.foldl_cons, hstep, bwFold_group T s [] [b &&& 1] (by simp) (by simp)]
      rw [pack]
      simp only [List.length_singleton, List.singleton_append, List.append_assoc,
        List.nil_append]

theorem bwRun_eq_pack (T : List Tok) : bwRun T = pack T := by
  have := bwFold_none T []
  simpa [bwRun] using this

theorem hsqBody_eq_pack (data : List Nat) :
    hsqBody data = pack (cmdsTokens (hsqCmds data)) := by
  rw [hsqBody]
  split
  · next h =>
    have hnil : data = [] := List.length_eq_zero.mp h
    subst hnil
    show [2, 0, 0, 0, 0] = pack [.bit 0, .bit 1, .word 0, .byte 0]
    rw [pack]
    simp [groupSplit, bitsVal, wordBytes, pack]
  · exact bwRun_eq_pack _

theorem hsq_compress_getD (data : List Nat) (i : Nat) (h : i < 6) :
    (hsq_compress data).getD i 0 = (hsqHeader data.length (6 + (hsqBody data).length)).getD i 0 := by
  rw [hsq_compress, List.getD_append]
  rw [hsqHeader_length]; exact h

theorem compress_decomp_field_eq (data : List Nat) :
    readLE16 (hsq_compress data) 0 = data.length % 65536 := by
  rw [readLE16, hsq_compress_getD data 0 (by omega), hsq_compress_getD data 1 (by omega)]
  show (data.length &&& 65535) % 256 + 256 * ((data.length &&& 65535) / 256) = _
  rw [and_65535]
  omega

theorem compress_comp_field_eq (data : List Nat) :
    readLE16 (hsq_compress data) 3 = (hsq_compress data).length % 65536 := by
  have hlen : (hsq_compress data).length = 6 + (hsqBody data).length := by
    rw [hsq_compress, List.length_append, hsqHeader_length]
  rw [readLE16, hsq_compress_getD data 3 (by omega), hsq_compress_getD data 4 (by omega)]
  show ((6 + (hsqBody data).length) &&& 65535) % 256 +
      256 * (((6 + (hsqBody data).length) &&& 65535) / 256) = _
  rw [and_65535, hlen]
  omega

/-! ### Decoder-stream invariant: `skipPack` equations and step lemmas -/

theorem and_one_le (b : Nat) : b &&& 1 ≤ 1 := by
  rw [Nat.and_one_is_mod]; omega

theorem and_one_idem (b : Nat) : (b &&& 1) &&& 1 = b &&& 1 := by
  rw [Nat.and_one_is_mod (b &&& 1), Nat.and_one_is_mod b]; omega

theorem skipPack_byte (p : List Nat) (v : Nat) (T : List Tok) :
    skipPack p (.byte v :: T) = Option.map ((v &&& 0xFF) :: ·) (skipPack p T) := by
  cases p <;> simp [skipPack]

theorem skipPack_word (p : List Nat) (w : Nat) (T : List Tok) :
    skipPack p (.word w :: T) =
      Option.map ((w &&& 0xFFFF) % 256 :: (w &&& 0xFFFF) / 256 :: ·) (skipPack p T) := by
  cases p <;> simp [skipPack]

theorem skipPack_cons_bit (x : Nat) (p : List Nat) (b : Nat) (T : List Tok) :
    skipPack (x :: p) (.bit b :: T) = if x = b &&& 1 then skipPack p T else none := by
  simp [skipPack]

theorem skipPack_cons_nil (x : Nat) (p : List Nat) :
    skipPack (x :: p) [] = if x = 0 then skipPack p [] else none := by
  simp [skipPack]

theorem skipPack_nil : ∀ T : List Tok, skipPack [] T = some (pack T) := by
  intro T
  induction T with
  | nil => simp [skipPack]
  | cons t T ih =>
    cases t with
    | byte v => rw [skipPack_byte, ih]; simp [pack]
    | word w => rw [skipPack_word, ih]; simp [pack]
    | bit b => simp [skipPack]

theorem skipPack_group : ∀ (T : List Tok) (n : Nat),
    skipPack ((groupSplit n T).1 ++ List.replicate (n - (groupSplit n T).1.length) 0) T =
      some ((groupSplit n T).2.1 ++ pack (groupSplit n T).2.2) := by
  intro T
  induction T with
  | nil =>
    intro n
    simp only [groupSplit, List.nil_append, List.length_nil, Nat.sub_zero]
    have : ∀ m, skipPack (List.replicate m 0) ([] : List Tok) = some [] := by
      intro m
      induction m with
      | zero => simp [skipPack, pack]
      | succ m ih => rw [List.replicate_succ, skipPack_cons_nil, if_pos rfl, ih]
    rw [this n]
    simp [pack]
  | cons t T ih =>
    intro n
    cases t with
    | byte v =>
      simp only [groupSplit, skipPack_byte, ih n]
      simp [List.cons_append]
    | word w =>
      simp only [groupSplit, skipPack_word, ih n]
      simp [List.cons_append]
    | bit b =>
      cases n with
      | zero =>
        simp only [groupSplit, List.nil_append, List.length_nil, Nat.sub_zero,
          List.replicate, skipPack_nil]
      | succ k =>
        simp only [groupSplit, List.length_cons, List.cons_append, skipPack_cons_bit,
          if_pos rfl]
        have hs : k + 1 - ((groupSplit k T).1.length + 1) = k - (groupSplit k T).1.length := by
          omega
        rw [hs]
        exact ih k

theorem qval_cons (x : Nat) (p : List Nat) :
    qval (x :: p) = (x &&& 1) + 2 * qval p := by
  simp only [qval, bitsVal, List.length_cons, pow_succ]
  ring

theorem qval_nil : qval [] = 1 := by simp [qval, bitsVal]

theorem qval_pos (p : List Nat) : 1 ≤ qval p := by
  have := Nat.two_pow_pos p.length
  simp only [qval]
  omega

theorem drop_eq_cons {d : List Nat} {pos x : Nat} {s : List Nat}
    (h : d.drop pos = x :: s) :
    d.getD pos 0 = x ∧ pos < d.length ∧ d.drop (pos + 1) = s := by
  have hlen : d.length - pos = s.length + 1 := by
    have := congrArg List.length h
    simpa [List.length_drop] using this
  have hpos : pos < d.length := by
    by_contra hc
    have : d.drop pos = [] := List.drop_eq_nil_of_le (by omega)
    rw [this] at h
    exact List.noConfusion h
  refine ⟨?_, hpos, ?_⟩
  · have h0 : d[pos]? = some x := by
      have : (d.drop pos)[0]? = some x := by rw [h]; simp
      rwa [List.getElem?_drop, Nat.add_zero] at this
    rw [List.getD_eq_getElem?_getD, h0]
    rfl
  · have h1 : d.drop (pos + 1) = List.drop 1 (d.drop pos) := (List.drop_drop 1 pos d).symm
    rw [h1, h]
    rfl

theorem inv_byte {T : List Tok} {d : List Nat} {pos q v : Nat}
    (h : Inv (.byte v :: T) d pos q) :
    read_u8 d pos = .ok (v &&& 0xFF, pos + 1) ∧ Inv T d (pos + 1) q := by
  obtain ⟨p, hp15, hq, hsp⟩ := h
  rw [skipPack_byte] at hsp
  cases hsub : skipPack p T with
  | none => rw [hsub] at hsp; exact absurd hsp (by simp)
  | some s =>
    rw [hsub] at hsp
    simp only [Option.map_some', Option.some.injEq] at hsp
    obtain ⟨hget, hpos, hdrop⟩ := drop_eq_cons hsp.symm
    constructor
    · rw [read_u8, if_neg (by omega), hget]
    · exact ⟨p, hp15, hq, by rw [hsub, hdrop]⟩

theorem inv_word {T : List Tok} {d : List Nat} {pos q w : Nat}
    (h : Inv (.word w :: T) d pos q) :
    read_u16 d pos = .ok (w &&& 0xFFFF, pos + 2) ∧ Inv T d (pos + 2) q := by
  obtain ⟨p, hp15, hq, hsp⟩ := h
  rw [skipPack_word] at hsp
  cases hsub : skipPack p T with
  | none => rw [hsub] at hsp; exact absurd hsp (by simp)
  | some s =>
    rw [hsub] at hsp
    simp only [Option.map_some', Option.some.injEq] at hsp
    obtain ⟨hget0, hpos0, hdrop0⟩ := drop_eq_cons hsp.symm
    obtain ⟨hget1, hpos1, hdrop1⟩ := drop_eq_cons hdrop0
    constructor
    · rw [read_u16, if_neg (by omega), hget0, hget1]
      have : (w &&& 0xFFFF) % 256 + 256 * ((w &&& 0xFFFF) / 256) = w &&& 0xFFFF := by
        omega
      rw [this]
    · exact ⟨p, hp15, hq, by rw [hsub]; rw [show pos + 2 = pos + 1 + 1 by omega, hdrop1]⟩

theorem inv_bit {T : List Tok} {d : List Nat} {pos q b : Nat}
    (h : Inv (.bit b :: T) d pos q) :
    ∃ pos' q', get_bit d pos q = .ok (b &&& 1, pos', q') ∧ Inv T d pos' q' ∧ pos ≤ pos' := by
  obtain ⟨p, hp15, hq, hsp⟩ := h
  cases p with
  | nil =>
    -- refill from the next word
    have hq01 : q ≤ 1 := by
      rcases hq with hq | hq
      · rw [hq, qval_nil]
      · omega
    rw [skipPack_nil, Option.some.injEq] at hsp
    rw [pack] at hsp
    set g := groupSplit 15 T with hg
    set W := bitsVal ((b &&& 1) :: g.1) with hW
    have hWlt : W < 65536 := by
      have := bitsVal_lt ((b &&& 1) :: g.1)
      have hlen : ((b &&& 1) :: g.1).length ≤ 16 := by
        have hgl : g.1.length ≤ 15 := by rw [hg]; exact groupSplit_bits_le T 15
        simp only [List.length_cons]
        omega
      calc W < 2 ^ ((b &&& 1) :: g.1).length := this
        _ ≤ 2 ^ 16 := Nat.pow_le_pow_right (by omega) hlen
        _ = 65536 := by norm_num
    have hsp' : d.drop pos = W % 256 :: W / 256 :: (g.2.1 ++ pack g.2.2) := by
      rw [← hsp]; rfl
    obtain ⟨hget0, hpos0, hdrop0⟩ := drop_eq_cons hsp'
    obtain ⟨hget1, hpos1, hdrop1⟩ := drop_eq_cons hdrop0
    have hWval : bitsVal ((b &&& 1) :: g.1) = (b &&& 1) + 2 * bitsVal g.1 := by
      simp only [bitsVal, and_one_idem]
    refine ⟨pos + 2, 0x8000 ||| (W >>> 1), ?_, ?_, by omega⟩
    · rw [get_bit]
      have hq2 : q >>> 1 = 0 := by rw [Nat.shiftRight_eq_div_pow]; omega
      rw [if_pos hq2, read_u16, if_neg (by omega), hget0, hget1]
      have hWrt : W % 256 + 256 * (W / 256) = W := by omega
      rw [hWrt]
      have hWbit : W &&& 1 = b &&& 1 := by
        rw [Nat.and_one_is_mod, hW, hWval]
        have := and_one_le b
        omega
      dsimp only
      rw [hWbit]
    · have hgl : g.1.length ≤ 15 := by rw [hg]; exact groupSplit_bits_le T 15
      refine ⟨g.1 ++ List.replicate (15 - g.1.length) 0, ?_, Or.inl ?_, ?_⟩
      · simp only [List.length_append, List.length_replicate]
        omega
      · have hlen15 : (g.1 ++ List.replicate (15 - g.1.length) 0).length = 15 := by
          simp only [List.length_append, List.length_replicate]
          omega
        have hbv : bitsVal (g.1 ++ List.replicate (15 - g.1.length) 0) = bitsVal g.1 := by
          rw [bitsVal_append, bitsVal_replicate_zero]
          ring
        have hWsh : W >>> 1 = bitsVal g.1 := by
          rw [Nat.shiftRight_eq_div_pow, hW, hWval]
          have := and_one_le b
          omega
        have hbound : W >>> 1 < 32768 := by
          rw [hWsh]
          have := bitsVal_lt g.1
          calc bitsVal g.1 < 2 ^ g.1.length := this
            _ ≤ 2 ^ 15 := Nat.pow_le_pow_right (by omega) hgl
            _ = 32768 := by norm_num
        rw [lor_32768 _ hbound, qval, hlen15, hbv, hWsh]
        norm_num
        omega
      · rw [skipPack_group T 15, ← hg]
        rw [show pos + 2 = pos + 1 + 1 by omega, hdrop1]
  | cons x p' =>
    have hqv : q = qval (x :: p') := by
      rcases hq with hq | hq
      · exact hq
      · exact absurd hq.1 (by simp)
    rw [skipPack_cons_bit] at hsp
    by_cases hx : x = b &&& 1
    · rw [if_pos hx] at hsp
      have hqc : q = (x &&& 1) + 2 * qval p' := by rw [hqv, qval_cons]
      have hx1 : x &&& 1 = x := by rw [hx, and_one_idem]
      refine ⟨pos, qval p', ?_, ⟨p', by simp at hp15; omega, Or.inl rfl, hsp⟩, le_refl _⟩
      rw [get_bit]
      have hqp := qval_pos p'
      have hsh : q >>> 1 = qval p' := by
        rw [Nat.shiftRight_eq_div_pow]
        have := and_one_le x
        omega
      rw [if_neg (by omega : ¬q >>> 1 = 0)]
      have hbit : q &&& 1 = b &&& 1 := by
        rw [Nat.and_one_is_mod, hqc, hx1, ← hx]
        have : x ≤ 1 := by rw [← hx1]; exact and_one_le x
        omega
      rw [hbit, hsh]
    · rw [if_neg hx] at hsp
      exact absurd hsp (by simp)

/-- Initial invariant: fresh queue, stream suffix exactly `pack T`. -/
theorem inv_init {T : List Tok} {d : List Nat} {pos : Nat}
    (h : d.drop pos = pack T) : Inv T d pos 0 :=
  ⟨[], by simp, Or.inr ⟨rfl, rfl⟩, by rw [skipPack_nil, h]⟩

/-! ### Replay of the command stream by the decoder -/

theorem cmdsTokens_nil : cmdsTokens [] = [] := rfl

theorem cmdsTokens_cons (c : Cmd) (cs : List Cmd) :
    cmdsTokens (c :: cs) = cmdTokens c ++ cmdsTokens cs := by
  simp [cmdsTokens]

theorem take_getD_lt {data : List Nat} {i π : Nat} (h : i < π) :
    (data.take π).getD i 0 = data.getD i 0 := by
  rw [List.getD_eq_getElem?_getD, List.getD_eq_getElem?_getD, List.getElem?_take_of_lt h]

theorem length_take_of_le {data : List Nat} {π : Nat} (h : π ≤ data.length) :
    (data.take π).length = π := by
  rw [List.length_take]
  omega

theorem take_succ_eq {data : List Nat} {π : Nat} (h : π < data.length) :
    data.take (π + 1) = data.take π ++ [data.getD π 0] := by
  rw [List.take_succ, List.getElem?_eq_getElem h]
  rw [List.getD_eq_getElem?_getD, List.getElem?_eq_getElem h]
  rfl

theorem copyN_data {data : List Nat} : ∀ (cnt π σ : Nat), 1 ≤ σ → σ ≤ π →
    π + cnt ≤ data.length →
    (∀ i, i < cnt → data.getD (π + i) 0 = data.getD (π - σ + i) 0) →
    copyN cnt (data.take π) (-(σ : Int)) = .ok (data.take (π + cnt)) := by
  intro cnt
  induction cnt with
  | zero =>
    intro π σ _ _ _ _
    simp [copyN]
  | succ cnt ih =>
    intro π σ hσ1 hσπ hlen hval
    have hπlen : π < data.length := by omega
    have hlt : (data.take π).length = π := length_take_of_le (by omega)
    have hidx : ((data.take π).length : Int) + -(σ : Int) = ((π - σ : Nat) : Int) := by
      rw [hlt]
      omega
    rw [copyN, hidx]
    have hpg : pyGet (data.take π) ((π - σ : Nat) : Int) =
        some ((data.take π).getD (π - σ) 0) := by
      rw [pyGet, if_pos (by omega), if_pos (by rw [hlt]; omega)]
      simp
    have hv : (data.take π).getD (π - σ) 0 = data.getD π 0 := by
      rw [take_getD_lt (by omega)]
      have := hval 0 (by omega)
      simpa using this.symm
    rw [hpg, hv]
    dsimp only
    rw [← take_succ_eq hπlen]
    have hrec := ih (π + 1) σ hσ1 (by omega) (by omega) (by
      intro i hi
      have := hval (i + 1) (by omega)
      rw [show π + (i + 1) = π + 1 + i from by omega,
          show π - σ + (i + 1) = π + 1 - σ + i from by omega] at this
      exact this)
    rw [hrec]
    rw [show π + 1 + cnt = π + (cnt + 1) from by omega]

theorem cb_encode {c : Nat} (h : c ≤ 3) :
    2 * (((c >>> 1) &&& 1) &&& 1) + ((c &&& 1) &&& 1) = c := by
  interval_cases c <;> decide

theorem short_off_lt (σ : Nat) : ((-(σ : Int)) % 256).toNat < 256 := by
  omega

theorem short_off_decode {σ : Nat} (h1 : 1 ≤ σ) (h2 : σ ≤ 256) :
    ((((-(σ : Int)) % 256).toNat : Int)) - 256 = -(σ : Int) := by
  omega

theorem long_off_lt (σ : Nat) : (((-(σ : Int)) + 8192) % 8192).toNat < 8192 := by
  omega

theorem long_off_decode {σ : Nat} (h1 : 1 ≤ σ) (h2 : σ ≤ 8192) :
    (((((-(σ : Int)) + 8192) % 8192).toNat : Int)) - 8192 = -(σ : Int) := by
  omega

theorem long_word_val {a c : Nat} (ha : a < 8192) (hc : c < 8) :
    (a <<< 3 ||| c) = 8 * a + c ∧ (a <<< 3 ||| c) &&& 7 = c ∧
    (a <<< 3 ||| c) >>> 3 = a ∧ (a <<< 3 ||| c) < 65536 := by
  have hval : a <<< 3 ||| c = 2 ^ 3 * a + c := lor_pow_add a c (by norm_num; omega)
  have h7 : (2 ^ 3 * a + c) &&& 7 = c := by
    have : (7 : Nat) = 2 ^ 3 - 1 := by norm_num
    rw [this, Nat.and_pow_two_sub_one_eq_mod]
    norm_num
    omega
  have hsh : (2 ^ 3 * a + c) >>> 3 = a := by
    rw [Nat.shiftRight_eq_div_pow]
    norm_num
    omega
  refine ⟨by rw [hval]; ring, by rw [hval, h7], by rw [hval, hsh], by rw [hval]; norm_num; omega⟩

/-- The decoder, started on the serialized form of a well-formed command
chain with the output so far being `data.take π`, reproduces `data`. -/
theorem decode_replay {data : List Nat} {π : Nat} {C : List Cmd}
    (h : CmdChain data π C) :
    ∀ (fuel : Nat) (d : List Nat) (pos q : Nat), C.length + 1 ≤ fuel →
      Inv (cmdsTokens (C ++ [.longExt 0 0])) d pos q →
      decodeLoop d data.length fuel pos q (data.take π) = .ok data := by
  induction h with
  | nil =>
    intro fuel d pos q hfuel hInv
    rw [List.nil_append, cmdsTokens_cons, cmdsTokens_nil, List.append_nil] at hInv
    simp only [cmdTokens] at hInv
    obtain ⟨fuel, rfl⟩ : ∃ f, fuel = f + 1 := ⟨fuel - 1, by omega⟩
    obtain ⟨pos1, q1, hgb1, hinv1, _⟩ := inv_bit hInv
    have hgb1' : get_bit d pos q = .ok (0, pos1, q1) := by simpa using hgb1
    obtain ⟨pos2, q2, hgb2, hinv2, _⟩ := inv_bit hinv1
    have hgb2' : get_bit d pos1 q1 = .ok (1, pos2, q2) := by simpa using hgb2
    obtain ⟨hr16, hinv3⟩ := inv_word hinv2
    have hr16' : read_u16 d pos2 = .ok (0, pos2 + 2) := by simpa using hr16
    obtain ⟨hr8, _⟩ := inv_byte hinv3
    have hr8' : read_u8 d (pos2 + 2) = .ok (0, pos2 + 2 + 1) := by simpa using hr8
    rw [decodeLoop, hgb1']
    dsimp only
    rw [if_neg (by omega : ¬(0 : Nat) ≠ 0), hgb2']
    dsimp only
    rw [if_pos (by omega : (1 : Nat) ≠ 0), hr16']
    dsimp only
    rw [if_pos (by simp : (0 : Nat) &&& 0x07 = 0), hr8']
    dsimp only
    rw [if_pos rfl, List.take_length]
  | lit hπ hlt hchain ih =>
    rename_i π' T
    intro fuel d pos q hfuel hInv
    rw [List.cons_append, cmdsTokens_cons] at hInv
    simp only [cmdTokens, List.cons_append, List.nil_append] at hInv
    obtain ⟨fuel, rfl⟩ : ∃ f, fuel = f + 1 := ⟨fuel - 1, by omega⟩
    obtain ⟨pos1, q1, hgb1, hinv1, _⟩ := inv_bit hInv
    have hgb1' : get_bit d pos q = .ok (1, pos1, q1) := by simpa using hgb1
    obtain ⟨hr8, hinv2⟩ := inv_byte hinv1
    have hb : data.getD π' 0 &&& 0xFF = data.getD π' 0 := by
      rw [show (0xFF : Nat) = 2 ^ 8 - 1 from by norm_num, Nat.and_pow_two_sub_one_eq_mod]
      omega
    rw [hb] at hr8
    rw [decodeLoop, hgb1']
    dsimp only
    rw [if_pos (by omega : (1 : Nat) ≠ 0)]
    rw [if_neg (by rw [length_take_of_le (by omega)]; omega)]
    rw [hr8]
    dsimp only
    rw [← take_succ_eq hπ]
    exact ih fuel d (pos1 + 1) q1 (by simp at hfuel ⊢; omega) hinv2
  | short h1 h2 h3 h4 h5 h6 hval hchain ih =>
    rename_i π' σ L T
    intro fuel d pos q hfuel hInv
    rw [List.cons_append, cmdsTokens_cons] at hInv
    simp only [cmdTokens, List.cons_append, List.nil_append] at hInv
    obtain ⟨fuel, rfl⟩ : ∃ f, fuel = f + 1 := ⟨fuel - 1, by omega⟩
    obtain ⟨pos1, q1, hgb1, hinv1, _⟩ := inv_bit hInv
    have hgb1' : get_bit d pos q = .ok (0, pos1, q1) := by simpa using hgb1
    obtain ⟨pos2, q2, hgb2, hinv2, _⟩ := inv_bit hinv1
    have hgb2' : get_bit d pos1 q1 = .ok (0, pos2, q2) := by simpa using hgb2
    obtain ⟨pos3, q3, hgb3, hinv3, _⟩ := inv_bit hinv2
    obtain ⟨pos4, q4, hgb4, hinv4, _⟩ := inv_bit hinv3
    obtain ⟨hr8, hinv5⟩ := inv_byte hinv4
    have hoffb : ((-(σ : Int)) % 256).toNat &&& 0xFF = ((-(σ : Int)) % 256).toNat := by
      rw [show (0xFF : Nat) = 2 ^ 8 - 1 from by norm_num, Nat.and_pow_two_sub_one_eq_mod]
      have := short_off_lt σ
      omega
    rw [hoffb] at hr8
    rw [decodeLoop, hgb1']
    dsimp only
    rw [if_neg (by omega : ¬(0 : Nat) ≠ 0), hgb2']
    dsimp only
    rw [if_neg (by omega : ¬(0 : Nat) ≠ 0), hgb3]
    dsimp only
    rw [hgb4]
    dsimp only
    rw [hr8]
    dsimp only
    rw [short_off_decode h1 h2]
    have hc2 : 2 * ((((L - 2) >>> 1) &&& 1) &&& 1) + (((L - 2) &&& 1) &&& 1) + 2 = L := by
      have h32 : L - 2 ≤ 3 := by omega
      have := cb_encode h32
      omega
    rw [hc2, copyN_data L π' σ h1 h3 h6 hval]
    dsimp only
    exact ih fuel d (pos4 + 1) q4 (by simp at hfuel ⊢; omega) hinv5
  | long h1 h2 h3 h4 h5 h6 hval hchain ih =>
    rename_i π' σ L T
    intro fuel d pos q hfuel hInv
    rw [List.cons_append, cmdsTokens_cons] at hInv
    simp only [cmdTokens, List.cons_append, List.nil_append] at hInv
    obtain ⟨fuel, rfl⟩ : ∃ f, fuel = f + 1 := ⟨fuel - 1, by omega⟩
    obtain ⟨pos1, q1, hgb1, hinv1, _⟩ := inv_bit hInv
    have hgb1' : get_bit d pos q = .ok (0, pos1, q1) := by simpa using hgb1
    obtain ⟨pos2, q2, hgb2, hinv2, _⟩ := inv_bit hinv1
    have hgb2' : get_bit d pos1 q1 = .ok (1, pos2, q2) := by simpa using hgb2
    obtain ⟨hr16, hinv3⟩ := inv_word hinv2
    have hw := long_word_val (a := ((-(σ : Int) + 8192) % 8192).toNat) (c := L - 2)
      (long_off_lt σ) (by omega)
    have hwm : (((-(σ : Int) + 8192) % 8192).toNat <<< 3 ||| (L - 2)) &&& 0xFFFF =
        ((-(σ : Int) + 8192) % 8192).toNat <<< 3 ||| (L - 2) := by
      rw [show (0xFFFF : Nat) = 2 ^ 16 - 1 from by norm_num,
        Nat.and_pow_two_sub_one_eq_mod]
      have := hw.2.2.2
      omega
    rw [hwm] at hr16
    rw [decodeLoop, hgb1']
    dsimp only
    rw [if_neg (by omega : ¬(0 : Nat) ≠ 0), hgb2']
    dsimp only
    rw [if_pos (by omega : (1 : Nat) ≠ 0), hr16]
    dsimp only
    rw [hw.2.1, hw.2.2.1]
    rw [if_neg (by omega : ¬(L - 2) = 0)]
    rw [long_off_decode h1 h2]
    rw [show L - 2 + 2 = L from by omega, copyN_data L π' σ h1 h3 h6 hval]
    dsimp only
    exact ih fuel d (pos2 + 2) q2 (by simp at hfuel ⊢; omega) hinv3
  | longExt h1 h2 h3 h4 h5 h6 hval hchain ih =>
    rename_i π' σ L T
    intro fuel d pos q hfuel hInv
    rw [List.cons_append, cmdsTokens_cons] at hInv
    simp only [cmdTokens, List.cons_append, List.nil_append] at hInv
    obtain ⟨fuel, rfl⟩ : ∃ f, fuel = f + 1 := ⟨fuel - 1, by omega⟩
    obtain ⟨pos1, q1, hgb1, hinv1, _⟩ := inv_bit hInv
    have hgb1' : get_bit d pos q = .ok (0, pos1, q1) := by simpa using hgb1
    obtain ⟨pos2, q2, hgb2, hinv2, _⟩ := inv_bit hinv1
    have hgb2' : get_bit d pos1 q1 = .ok (1, pos2, q2) := by simpa using hgb2
    obtain ⟨hr16, hinv3⟩ := inv_word hinv2
    have hw := long_word_val (a := ((-(σ : Int) + 8192) % 8192).toNat) (c := 0)
      (long_off_lt σ) (by omega)
    have hwm : (((-(σ : Int) + 8192) % 8192).toNat <<< 3 ||| 0) &&& 0xFFFF =
        ((-(σ : Int) + 8192) % 8192).toNat <<< 3 ||| 0 := by
      rw [show (0xFFFF : Nat) = 2 ^ 16 - 1 from by norm_num,
        Nat.and_pow_two_sub_one_eq_mod]
      have := hw.2.2.2
      omega
    rw [hwm] at hr16
    obtain ⟨hr8, hinv4⟩ := inv_byte hinv3
    have hext : (L - 2) &&& 0xFF = L - 2 := by
      rw [show (0xFF : Nat) = 2 ^ 8 - 1 from by norm_num, Nat.and_pow_two_sub_one_eq_mod]
      omega
    rw [hext] at hr8
    rw [decodeLoop, hgb1']
    dsimp only
    rw [if_neg (by omega : ¬(0 : Nat) ≠ 0), hgb2']
    dsimp only
    rw [if_pos (by omega : (1 : Nat) ≠ 0), hr16]
    dsimp only
    rw [hw.2.1, hw.2.2.1]
    rw [if_pos rfl, hr8]
    dsimp only
    rw [if_neg (by omega : ¬(L - 2) = 0)]
    rw [long_off_decode h1 h2]
    rw [show L - 2 + 2 = L from by omega, copyN_data L π' σ h1 h3 h6 hval]
    dsimp only
    exact ih fuel d (pos2 + 2 + 1) q2 (by simp at hfuel ⊢; omega) hinv4

/-! ### The encoder's matching loop produces a well-formed command chain -/

theorem mlGo_spec (data : List Nat) (pos mp maxLen : Nat) :
    ∀ (fuel ml : Nat), ml ≤ maxLen →
      (∀ j, j < ml → data.getD (pos + j) 0 = data.getD (mp + j) 0) →
      mlGo data pos mp maxLen ml fuel ≤ maxLen ∧
      (∀ j, j < mlGo data pos mp maxLen ml fuel →
        data.getD (pos + j) 0 = data.getD (mp + j) 0) := by
  intro fuel
  induction fuel with
  | zero => intro ml h1 h2; exact ⟨h1, h2⟩
  | succ fuel ih =>
    intro ml h1 h2
    rw [mlGo]
    split
    · next hc =>
      exact ih (ml + 1) (by omega) (by
        intro j hj
        rcases Nat.lt_or_ge j ml with hj' | hj'
        · exact h2 j hj'
        · have : j = ml := by omega
          subst this
          exact hc.2)
    · exact ⟨h1, h2⟩

theorem matchLen_spec (data : List Nat) (pos mp maxLen : Nat) :
    matchLen data pos mp maxLen ≤ maxLen ∧
    (∀ j, j < matchLen data pos mp maxLen →
      data.getD (pos + j) 0 = data.getD (mp + j) 0) :=
  mlGo_spec data pos mp maxLen maxLen 0 (by omega) (by omega)

theorem chainWalk_spec (data : List Nat) (prevm : Nat → Nat) (pos maxLen : Nat) :
    ∀ (budget mp bl bo : Nat), mp < pos → BestProp data pos maxLen bl bo →
      BestProp data pos maxLen
        (chainWalk data prevm pos (pos - 8192) maxLen budget mp bl bo).1
        (chainWalk data prevm pos (pos - 8192) maxLen budget mp bl bo).2 := by
  intro budget
  induction budget with
  | zero => intro mp bl bo _ hB; exact hB
  | succ budget ih =>
    intro mp bl bo hmp hB
    rw [chainWalk]
    split
    · next hge =>
      dsimp only
      have hml := matchLen_spec data pos mp maxLen
      have hnew : BestProp data pos maxLen (matchLen data pos mp maxLen) (pos - mp) := by
        right
        refine ⟨by omega, by omega, by omega, hml.1, ?_⟩
        intro j hj
        have := hml.2 j hj
        rw [show pos - (pos - mp) + j = mp + j from by omega]
        exact this
      split
      · next hgt =>
        split
        · exact hnew
        · split
          · exact hnew
          · next hnp =>
            exact ih (prevm mp) _ _ (by omega) hnew
      · split
        · exact hB
        · next hnp =>
          exact ih (prevm mp) _ _ (by omega) hB
    · exact hB

theorem headLt_init (B : Nat) : HeadLt initH B := by
  intro h q hq
  exact absurd hq (by simp [initH])

theorem headLt_mono {st : HState} {B B' : Nat} (h : B ≤ B') (hB : HeadLt st B) :
    HeadLt st B' := fun hh q hq => lt_of_lt_of_le (hB hh q hq) h

theorem insertPos_headLt {data : List Nat} {st : HState} {p B : Nat}
    (hB : HeadLt st B) (hp : p < B) : HeadLt (insertPos data st p) B := by
  intro hh q hq
  simp only [insertPos] at hq
  split at hq
  · simp only [Option.some.injEq] at hq
    omega
  · exact hB hh q hq

theorem insertRange_headLt {data : List Nat} {posb B : Nat} :
    ∀ (k j : Nat) (st : HState), HeadLt st B → posb + j + k ≤ B →
      HeadLt (insertRange data posb st j k) B := by
  intro k
  induction k with
  | zero => intro j st hB _; exact hB
  | succ k ih =>
    intro j st hB hbound
    rw [insertRange]
    apply ih (j + 1)
    · split
      · exact insertPos_headLt hB (by omega)
      · exact hB
    · omega

theorem wf_getD {data : List Nat} (hwf : Wf data) {pos : Nat} (h : pos < data.length) :
    data.getD pos 0 < 256 := by
  rw [List.getD_eq_getElem?_getD, List.getElem?_eq_getElem h]
  simp only [Option.getD_some]
  exact hwf _ (List.getElem_mem h)

theorem searchStep_spec {data : List Nat} {st : HState} {pos maxLen : Nat}
    (hB : HeadLt st pos) :
    BestProp data pos maxLen (searchStep data st pos maxLen).1
        (searchStep data st pos maxLen).2.1 ∧
    HeadLt (searchStep data st pos maxLen).2.2 (pos + 1) := by
  rw [searchStep]
  split
  · refine ⟨?_, ?_⟩
    · show BestProp data pos maxLen
        (match st.head (hash3 data pos) with
          | none => (0, 0)
          | some mp => chainWalk data st.prev pos (pos - 8192) maxLen 64 mp 0 0).1
        (match st.head (hash3 data pos) with
          | none => (0, 0)
          | some mp => chainWalk data st.prev pos (pos - 8192) maxLen 64 mp 0 0).2
      cases hh : st.head (hash3 data pos) with
      | none => exact Or.inl ⟨rfl, rfl⟩
      | some mp =>
        have hmp : mp < pos := hB _ _ hh
        exact chainWalk_spec data st.prev pos maxLen 64 mp 0 0 hmp (Or.inl ⟨rfl, rfl⟩)
    · show HeadLt (insertPos data st pos) (pos + 1)
      exact insertPos_headLt (headLt_mono (by omega) hB) (by omega)
  · exact ⟨Or.inl ⟨rfl, rfl⟩, headLt_mono (by omega) hB⟩

theorem compLoop_chain {data : List Nat} (hwf : Wf data) :
    ∀ (fuel pos : Nat) (st : HState) (acc : List Cmd),
      pos ≤ data.length → data.length - pos < fuel → HeadLt st pos →
      ∃ C, compLoop data fuel pos st acc = acc ++ C ∧ CmdChain data pos C := by
  intro fuel
  induction fuel with
  | zero => intro pos st acc h1 h2 _; omega
  | succ fuel ih =>
    intro pos st acc hpos hfuel hB
    rw [compLoop]
    by_cases hlt : pos < data.length
    · rw [if_pos hlt]
      dsimp only
      set maxLen := min (data.length - pos) 257 with hml
      set s := searchStep data st pos maxLen with hs
      have hspec := @searchStep_spec data st pos maxLen hB
      rw [← hs] at hspec
      obtain ⟨hbest, hB1⟩ := hspec
      by_cases hA : s.2.1 ≤ 256 ∧ 2 ≤ s.1
      · -- short back-reference
        rw [if_pos hA]
        have hright : 1 ≤ s.2.1 ∧ s.2.1 ≤ 8192 ∧ s.2.1 ≤ pos ∧ s.1 ≤ maxLen ∧
            ∀ j, j < s.1 → data.getD (pos + j) 0 = data.getD (pos - s.2.1 + j) 0 := by
          rcases hbest with ⟨hbl, _⟩ | h
          · omega
          · exact h
        obtain ⟨h1, h2, h3, h4, hval⟩ := hright
        have hLle : min s.1 5 ≤ data.length - pos := by
          have : maxLen ≤ data.length - pos := Nat.min_le_left _ _
          omega
        have hB2 : HeadLt (insertRange data pos s.2.2 1 (min s.1 5 - 1))
            (pos + min s.1 5) := by
          apply insertRange_headLt _ _ _ (headLt_mono (by omega) hB1)
          omega
        obtain ⟨C', heq, hchain⟩ := ih (pos + min s.1 5) _ _ (by omega) (by omega) hB2
        refine ⟨.short (min s.1 5 - 2) ((-(s.2.1 : Int) % 256).toNat) :: C', ?_, ?_⟩
        · rw [heq]
          simp
        · exact CmdChain.short h1 (by omega) h3 (by omega) (by omega) (by omega)
            (fun i hi => hval i (by omega)) hchain
      · rw [if_neg hA]
        by_cases hA2 : 3 ≤ s.1
        · -- long back-reference
          rw [if_pos hA2]
          have hright : 1 ≤ s.2.1 ∧ s.2.1 ≤ 8192 ∧ s.2.1 ≤ pos ∧ s.1 ≤ maxLen ∧
              ∀ j, j < s.1 → data.getD (pos + j) 0 = data.getD (pos - s.2.1 + j) 0 := by
            rcases hbest with ⟨hbl, _⟩ | h
            · omega
            · exact h
          obtain ⟨h1, h2, h3, h4, hval⟩ := hright
          have hLle : s.1 ≤ data.length - pos := by
            have : maxLen ≤ data.length - pos := Nat.min_le_left _ _
            omega
          have h257 : s.1 ≤ 257 := by
            have : maxLen ≤ 257 := Nat.min_le_right _ _
            omega
          have hB2 : HeadLt (insertRange data pos s.2.2 1 (s.1 - 1)) (pos + s.1) := by
            apply insertRange_headLt _ _ _ (headLt_mono (by omega) hB1)
            omega
          by_cases hcc : 1 ≤ s.1 - 2 ∧ s.1 - 2 ≤ 7
          · rw [if_pos hcc]
            obtain ⟨C', heq, hchain⟩ := ih (pos + s.1) _ _ (by omega) (by omega) hB2
            refine ⟨.long (((-(s.2.1 : Int) + 8192) % 8192).toNat <<< 3 ||| (s.1 - 2)) :: C',
              ?_, ?_⟩
            · rw [heq]; simp
            · exact CmdChain.long h1 h2 h3 (by omega) (by omega) (by omega)
                (fun i hi => hval i (by omega)) hchain
          · rw [if_neg hcc]
            have hcc8 : 8 ≤ s.1 - 2 := by omega
            have hmask : (s.1 - 2) &&& 0xFF = s.1 - 2 := by
              rw [show (0xFF : Nat) = 2 ^ 8 - 1 from by norm_num,
                Nat.and_pow_two_sub_one_eq_mod]
              omega
            rw [hmask]
            obtain ⟨C', heq, hchain⟩ := ih (pos + s.1) _ _ (by omega) (by omega) hB2
            refine ⟨.longExt (((-(s.2.1 : Int) + 8192) % 8192).toNat <<< 3 ||| 0)
              (s.1 - 2) :: C', ?_, ?_⟩
            · rw [heq]; simp
            · exact CmdChain.longExt h1 h2 h3 hcc8 (by omega) (by omega)
                (fun i hi => hval i (by omega)) hchain
        · -- literal
          rw [if_neg hA2]
          obtain ⟨C', heq, hchain⟩ := ih (pos + 1) _ _ (by omega) (by omega) hB1
          refine ⟨.literal (data.getD pos 0) :: C', ?_, ?_⟩
          · rw [heq]; simp
          · exact CmdChain.lit hlt (wf_getD hwf hlt) hchain
    · rw [if_neg hlt]
      have hend : pos = data.length := by omega
      subst hend
      exact ⟨[], by simp, CmdChain.nil⟩

/-! ### Assembly: the full round-trip -/

theorem tokByteCount_cons (t : Tok) (T : List Tok) :
    tokByteCount (t :: T) =
      (match t with | .bit _ => 0 | .byte _ => 1 | .word _ => 2) + tokByteCount T := by
  simp [tokByteCount]

theorem groupSplit_bytes : ∀ (T : List Tok) (k : Nat),
    (groupSplit k T).2.1.length + tokByteCount (groupSplit k T).2.2 = tokByteCount T := by
  intro T
  induction T with
  | nil => intro k; simp [groupSplit, tokByteCount]
  | cons t T ih =>
    intro k
    cases t with
    | byte v => simp only [groupSplit, tokByteCount_cons, List.length_cons]; rw [← ih k]; ring
    | word w => simp only [groupSplit, tokByteCount_cons, List.length_cons]; rw [← ih k]; ring
    | bit b =>
      cases k with
      | zero => simp [groupSplit, tokByteCount_cons]
      | succ k => simp only [groupSplit, tokByteCount_cons]; rw [← ih k]; ring

theorem pack_length_ge : ∀ (n : Nat) (T : List Tok), T.length ≤ n →
    tokByteCount T ≤ (pack T).length := by
  intro n
  induction n with
  | zero =>
    intro T hT
    have : T = [] := List.eq_nil_of_length_eq_zero (by omega)
    subst this
    simp [pack, tokByteCount]
  | succ n ih =>
    intro T hT
    cases T with
    | nil => simp [pack, tokByteCount]
    | cons t T =>
      cases t with
      | byte v =>
        rw [pack, tokByteCount_cons]
        have := ih T (by simpa using hT)
        simp only [List.length_cons]
        omega
      | word w =>
        rw [pack, tokByteCount_cons]
        have := ih T (by simpa using hT)
        simp only [List.length_cons]
        omega
      | bit b =>
        rw [pack, tokByteCount_cons]
        have hrest := groupSplit_rest_length 15 T
        have := ih (groupSplit 15 T).2.2 (by simp at hT; omega)
        have hgb := groupSplit_bytes T 15
        simp only [wordBytes, List.length_append, List.length_cons]
        simp only [List.length_cons, List.length_nil]
        omega

theorem cmdsTokens_byteCount : ∀ cs : List Cmd, cs.length ≤ tokByteCount (cmdsTokens cs) := by
  intro cs
  induction cs with
  | nil => simp [cmdsTokens, tokByteCount]
  | cons c cs ih =>
    rw [cmdsTokens_cons]
    have happ : tokByteCount (cmdTokens c ++ cmdsTokens cs) =
        tokByteCount (cmdTokens c) + tokByteCount (cmdsTokens cs) := by
      simp [tokByteCount]
    rw [happ]
    have hc : 1 ≤ tokByteCount (cmdTokens c) := by
      cases c <;> simp [cmdTokens, tokByteCount]
    simp only [List.length_cons]
    omega

/-- The HSQ round-trip, as a reusable lemma. -/
theorem hsq_roundtrip_main (data : List Nat) (hwf : Wf data)
    (hlen : data.length ≤ 65535) :
    hsq_decompress (hsq_compress data) = .ok data := by
  obtain ⟨C, hC, hchain⟩ := compLoop_chain hwf (data.length + 1) 0 initH []
    (by omega) (by omega) (headLt_init 0)
  have hcmds : hsqCmds data = C ++ [.longExt 0 0] := by
    rw [hsqCmds, hC]
    simp
  have hbody : hsqBody data = pack (cmdsTokens (C ++ [.longExt 0 0])) := by
    rw [hsqBody_eq_pack, hcmds]
  have hclen : (hsq_compress data).length = 6 + (hsqBody data).length := by
    rw [hsq_compress, List.length_append, hsqHeader_length]
  have hbl : C.length + 1 ≤ (hsqBody data).length := by
    rw [hbody]
    have h1 := pack_length_ge (cmdsTokens (C ++ [.longExt 0 0])).length _ (le_refl _)
    have h2 := cmdsTokens_byteCount (C ++ [.longExt 0 0])
    simp only [List.length_append, List.length_cons, List.length_nil] at h2
    omega
  have hdecomp : readLE16 (hsq_compress data) 0 = data.length := by
    rw [compress_decomp_field_eq]
    omega
  have hdrop : (hsq_compress data).drop 6 = pack (cmdsTokens (C ++ [.longExt 0 0])) := by
    rw [hsq_compress, List.drop_left' (hsqHeader_length _ _), hbody]
  have hreplay := decode_replay hchain ((hsq_compress data).length + 2)
    (hsq_compress data) 6 0 (by omega) (inv_init hdrop)
  rw [List.take_zero] at hreplay
  simp only [hsq_decompress]
  rw [if_neg (by omega), hdecomp, hreplay]
  dsimp only
  rw [List.take_length]

/-- Claim C1 (status: confirmed).  For every byte buffer `b` with
`len(b) ≤ 65535`, `hsq_decompress (hsq_compress b) = b`. -/
theorem hsq_roundtrip (data : List Nat) (hwf : Wf data)
    (hlen : data.length ≤ 65535) :
    hsq_decompress (hsq_compress data) = .ok data :=
  hsq_roundtrip_main data hwf hlen

/-- Claim C1 witness: the round-trip at a concrete buffer exercising
literals, a short back-reference and the EOF marker. -/
theorem hsq_roundtrip_witness :
    hsq_decompress (hsq_compress [1, 2, 3, 1, 2, 3, 1, 2, 3]) =
      .ok [1, 2, 3, 1, 2, 3, 1, 2, 3] :=
  hsq_roundtrip [1, 2, 3, 1, 2, 3, 1, 2, 3] (by intro x hx; simp at hx; omega) (by simp)

/-! ### Well-formedness (8-bit entries) of the compressed stream -/

theorem wf_nil : Wf [] := by
  intro x hx
  exact absurd hx (by simp)

theorem wf_cons {x : Nat} {l : List Nat} (hx : x < 256) (hl : Wf l) : Wf (x :: l) := by
  intro y hy
  rcases List.mem_cons.mp hy with h | h
  · omega
  · exact hl y h

theorem wf_append {l1 l2 : List Nat} (h1 : Wf l1) (h2 : Wf l2) : Wf (l1 ++ l2) := by
  intro y hy
  rcases List.mem_append.mp hy with h | h
  · exact h1 y h
  · exact h2 y h

theorem and_255_lt (v : Nat) : v &&& 0xFF < 256 := by
  rw [show (0xFF : Nat) = 2 ^ 8 - 1 from by norm_num, Nat.and_pow_two_sub_one_eq_mod]
  omega

theorem wf_groupSplit_bytes : ∀ (T : List Tok) (k : Nat),
    Wf (groupSplit k T).2.1 := by
  intro T
  induction T with
  | nil => intro k; simp only [groupSplit]; exact wf_nil
  | cons t T ih =>
    intro k
    cases t with
    | byte v =>
      simp only [groupSplit]
      exact wf_cons (and_255_lt v) (ih k)
    | word w =>
      simp only [groupSplit]
      have hlt : w &&& 0xFFFF < 65536 := by rw [and_65535]; omega
      exact wf_cons (by omega) (wf_cons (by omega) (ih k))
    | bit b =>
      cases k with
      | zero => simp only [groupSplit]; exact wf_nil
      | succ k => simp only [groupSplit]; exact ih k

theorem wf_pack : ∀ (n : Nat) (T : List Tok), T.length ≤ n → Wf (pack T) := by
  intro n
  induction n with
  | zero =>
    intro T hT
    have : T = [] := List.eq_nil_of_length_eq_zero (by omega)
    subst this
    rw [pack]
    exact wf_nil
  | succ n ih =>
    intro T hT
    cases T with
    | nil => rw [pack]; exact wf_nil
    | cons t T =>
      cases t with
      | byte v =>
        rw [pack]
        exact wf_cons (and_255_lt v) (ih T (by simpa using hT))
      | word w =>
        rw [pack]
        have hlt : w &&& 0xFFFF < 65536 := by rw [and_65535]; omega
        exact wf_cons (by omega) (wf_cons (by omega) (ih T (by simpa using hT)))
      | bit b =>
        rw [pack]
        have hW : bitsVal ((b &&& 1) :: (groupSplit 15 T).1) < 65536 := by
          have h1 := bitsVal_lt ((b &&& 1) :: (groupSplit 15 T).1)
          have h2 := groupSplit_bits_le T 15
          calc bitsVal ((b &&& 1) :: (groupSplit 15 T).1)
              < 2 ^ ((b &&& 1) :: (groupSplit 15 T).1).length := h1
            _ ≤ 2 ^ 16 := Nat.pow_le_pow_right (by omega) (by simp; omega)
            _ = 65536 := by norm_num
        have hrest := groupSplit_rest_length 15 T
        refine wf_append (wf_append ?_ (wf_groupSplit_bytes T 15))
          (ih (groupSplit 15 T).2.2 (by simp at hT; omega))
        exact wf_cons (by omega) (wf_cons (by omega) wf_nil)

theorem wf_hsqBody (data : List Nat) : Wf (hsqBody data) := by
  rw [hsqBody_eq_pack]
  exact wf_pack _ _ (le_refl _)

theorem wf_getD_any {l : List Nat} (hwf : Wf l) (i : Nat) : l.getD i 0 < 256 := by
  by_cases h : i < l.length
  · exact wf_getD hwf h
  · rw [List.getD_eq_default _ _ (by omega)]
    omega

/-- Claim C8 counterexample (status: corrected, negation proved).  It is
*not* the case that the `compressed_size` field always equals the total
length of the returned buffer: if it did, `hsq_compress` would injectively
map all `256^65535` buffers of length 65535 into streams with at most
65529 body bytes — fewer than `256^65535` possibilities.  (Injectivity
follows from the proven round-trip; the field is really the total length
modulo 65536, which wraps for incompressible inputs near the size limit.) -/
theorem hsq_compress_comp_field_not_exact :
    ¬ ∀ data : List Nat, Wf data → data.length ≤ 65535 →
        readLE16 (hsq_compress data) 3 = (hsq_compress data).length := by
  intro h
  let enc : (Fin 65535 → Fin 256) → Fin 65530 × (Fin 65529 → Fin 256) := fun g =>
    (⟨((hsq_compress (List.ofFn fun i => (g i : Nat))).drop 6).length % 65530,
      Nat.mod_lt _ (by omega)⟩,
     fun i => ⟨((hsq_compress (List.ofFn fun i => (g i : Nat))).drop 6).getD i 0 % 256,
      Nat.mod_lt _ (by omega)⟩)
  have keyfacts : ∀ g : Fin 65535 → Fin 256,
      Wf (List.ofFn fun i => ((g i : Nat))) ∧
      (List.ofFn fun i => ((g i : Nat))).length = 65535 ∧
      ((hsq_compress (List.ofFn fun i => (g i : Nat))).drop 6).length ≤ 65529 ∧
      Wf ((hsq_compress (List.ofFn fun i => (g i : Nat))).drop 6) ∧
      (hsq_compress (List.ofFn fun i => (g i : Nat))).drop 6 =
        hsqBody (List.ofFn fun i => (g i : Nat)) := by
    intro g
    have hw : Wf (List.ofFn fun i => ((g i : Nat))) := by
      intro x hx
      obtain ⟨i, hi⟩ := Set.mem_range.mp ((List.mem_ofFn _ _).mp hx)
      have := (g i).isLt
      omega
    have hl : (List.ofFn fun i => ((g i : Nat))).length = 65535 := by
      rw [List.length_ofFn]
    have hdrop : (hsq_compress (List.ofFn fun i => (g i : Nat))).drop 6 =
        hsqBody (List.ofFn fun i => (g i : Nat)) := by
      rw [hsq_compress, List.drop_left' (hsqHeader_length _ _)]
    have hclen : (hsq_compress (List.ofFn fun i => (g i : Nat))).length =
        6 + (hsqBody (List.ofFn fun i => (g i : Nat))).length := by
      rw [hsq_compress, List.length_append, hsqHeader_length]
    have htot := h _ hw (by omega)
    have hmod := compress_comp_field_eq (List.ofFn fun i => (g i : Nat))
    have hlt : (hsq_compress (List.ofFn fun i => (g i : Nat))).length < 65536 := by
      omega
    refine ⟨hw, hl, ?_, ?_, hdrop⟩
    · rw [List.length_drop]
      omega
    · rw [hdrop]
      exact wf_hsqBody _
  have hinj : Function.Injective enc := by
    intro g1 g2 hg
    obtain ⟨hw1, hl1, hblen1, hbwf1, hbody1⟩ := keyfacts g1
    obtain ⟨hw2, hl2, hblen2, hbwf2, hbody2⟩ := keyfacts g2
    have hg1 := congrArg Prod.fst hg
    have hg2 := congrArg Prod.snd hg
    simp only [enc, Fin.mk.injEq] at hg1
    have hlens : ((hsq_compress (List.ofFn fun i => (g1 i : Nat))).drop 6).length =
        ((hsq_compress (List.ofFn fun i => (g2 i : Nat))).drop 6).length := by
      omega
    have hbodies : (hsq_compress (List.ofFn fun i => (g1 i : Nat))).drop 6 =
        (hsq_compress (List.ofFn fun i => (g2 i : Nat))).drop 6 := by
      apply List.ext_getElem hlens
      intro i hi1 hi2
      have hfn := congrFun hg2 ⟨i, by omega⟩
      simp only [enc, Fin.mk.injEq] at hfn
      have hv1 := wf_getD_any hbwf1 i
      have hv2 := wf_getD_any hbwf2 i
      have : ((hsq_compress (List.ofFn fun i => (g1 i : Nat))).drop 6).getD i 0 =
          ((hsq_compress (List.ofFn fun i => (g2 i : Nat))).drop 6).getD i 0 := by
        omega
      rw [List.getD_eq_getElem _ _ hi1, List.getD_eq_getElem _ _ hi2] at this
      exact this
    have hcomp : hsq_compress (List.ofFn fun i => (g1 i : Nat)) =
        hsq_compress (List.ofFn fun i => (g2 i : Nat)) := by
      rw [hbody1] at hbodies
      rw [hbody2] at hbodies
      rw [hsq_compress, hsq_compress, hl1, hl2, hbodies]
    have hr1 := hsq_roundtrip_main _ hw1 (by omega)
    have hr2 := hsq_roundtrip_main _ hw2 (by omega)
    have hdec := congrArg hsq_decompress hcomp
    have hokok := (hr1.symm.trans hdec).trans hr2
    rw [Except.ok.injEq] at hokok
    have hfns := List.ofFn_injective hokok
    funext i
    have := congrFun hfns i
    exact Fin.ext (by simpa using this)
  have hcard := Fintype.card_le_of_injective enc hinj
  rw [Fintype.card_fun, Fintype.card_prod, Fintype.card_fun, Fintype.card_fin,
    Fintype.card_fin, Fintype.card_fin, Fintype.card_fin] at hcard
  have hsplit : (256 : ℕ) ^ 65535 = 256 ^ 6 * 256 ^ 65529 := by
    rw [← pow_add]
  have hlt : (65530 : ℕ) * 256 ^ 65529 < 256 ^ 6 * 256 ^ 65529 := by
    apply Nat.mul_lt_mul_of_lt_of_le (by norm_num) (le_refl _)
    exact Nat.pow_pos (by omega)
  omega

/-- Claim C2 (status: code_bug).  The claimed F7 round-trip
`f7_decompress (f7_compress x) = x` fails: at the final lookahead position
the decoder emits the three remaining bytes but advances its cursor by only
one, so the trailing copy loop emits the last two bytes a second time. -/
theorem f7_roundtrip_bug :
    f7_decompress (f7_compress [1, 2, 3]) = [1, 2, 3, 2, 3] ∧
    f7_decompress (f7_compress [1, 2, 3]) ≠ [1, 2, 3] := by
  constructor
  · rfl
  · decide

/-- Claim C5 (status: code_bug).  At the final lookahead position (exactly 3
bytes remaining, no pattern matched) `f7_decompress` emits all 3 remaining
bytes but then also re-emits the last two in the trailing loop, so input
bytes at the last two positions contribute to the output twice, not once. -/
theorem f7_decompress_final_window_bug :
    f7_decompress [4, 5, 6] = [4, 5, 6, 5, 6] ∧
    f7_decompress [4, 5, 6] ≠ [4, 5, 6] := by
  constructor
  · rfl
  · decide

/-! ## Claim theorems: HSQ header -/

/-- Claim C6 amended (status: corrected).  `hsq_compress` performs no size
check and never fails; the `decompressed_size` header field is
`len(data) mod 65536`, silently wrapping for inputs longer than 65535. -/
theorem hsq_compress_decomp_field (data : List Nat) :
    readLE16 (hsq_compress data) 0 = data.length % 65536 :=
  compress_decomp_field_eq data

/-- Claim C6 counterexample (status: corrected).  On an input of 65536 bytes
(`> 65535`), `hsq_compress` does not fail with any size-limit error: it
returns a stream whose `decompressed_size` field has wrapped to 0. -/
theorem hsq_compress_wraps_oversized :
    (List.replicate 65536 (0 : Nat)).length = 65536 ∧
    readLE16 (hsq_compress (List.replicate 65536 (0 : Nat))) 0 = 0 := by
  refine ⟨List.length_replicate .., ?_⟩
  rw [compress_decomp_field_eq, List.length_replicate]

/-- Claim C7 (status: confirmed).  For every input, the first 6 bytes of the
buffer returned by `hsq_compress` sum to `0xAB` modulo 256, with header
byte 2 chosen as 0 (byte 5 solves the checksum). -/
theorem hsq_compress_header_checksum (data : List Nat) :
    ((hsq_compress data).take 6).sum % 256 = 0xAB ∧
    (hsq_compress data).getD 2 0 = 0 := by
  constructor
  · rw [hsq_compress, List.take_left' (hsqHeader_length _ _)]
    show (hsqHeader data.length (6 + (hsqBody data).length)).sum % 256 = 0xAB
    rw [hsqHeader]
    set a := (data.length &&& 0xFFFF) % 256 with ha
    set b := (data.length &&& 0xFFFF) / 256 with hb
    set c := ((6 + (hsqBody data).length) &&& 0xFFFF) % 256 with hc
    set e := ((6 + (hsqBody data).length) &&& 0xFFFF) / 256 with he
    show (a + (b + (0 + (c + (e + (((((0xAB : Int) - a - b - 0 - c - e) % 256)).toNat + 0)))))) % 256 = 0xAB
    omega
  · rw [hsq_compress_getD data 2 (by omega)]
    rfl

/-- Claim C8 amended (status: corrected).  The header size fields hold
`len(data) mod 65536` and `(total output length) mod 65536`; they equal the
exact values only while those fit in 16 bits.  `hsq_get_sizes` reads back
exactly these two fields plus header byte 2 (which is 0). -/
theorem hsq_get_sizes_of_compress (data : List Nat) :
    hsq_get_sizes (hsq_compress data) =
      .ok (data.length % 65536, (hsq_compress data).length % 65536, 0) := by
  have hlen : (hsq_compress data).length = 6 + (hsqBody data).length := by
    rw [hsq_compress, List.length_append, hsqHeader_length]
  rw [hsq_get_sizes, if_neg (by omega)]
  have h0 : readLE16 (hsq_compress data) 0 = data.length % 65536 :=
    compress_decomp_field_eq data
  have h3 : readLE16 (hsq_compress data) 3 = (hsq_compress data).length % 65536 :=
    compress_comp_field_eq data
  have h2 : (hsq_compress data).getD 2 0 = 0 := by
    rw [hsq_compress_getD data 2 (by omega)]; rfl
  rw [h0, h3, h2]

/-! ## Claim theorems: HSQ decoder -/

/-- Claim C4 (status: confirmed).  The bit-queue refill rule: `get_bit`
returns the register's low bit and right-shifts; when the shifted register
reaches exactly 0 it reads the next little-endian u16 word `w`, returns
`w`'s low bit, and sets the register to `0x8000 ||| (w >>> 1)`.  The
sentinel planted at position 15 keeps the register nonzero throughout the
next 15 extractions (which deliver bits 1..15 of `w`), leaves it at exactly
1 after them, and the 16th further extraction right-shifts it to exactly 0,
triggering the next refill — so every 16-bit word supplies exactly 16 data
bits with no separate bit count. -/
theorem get_bit_queue_spec :
    (∀ (d : List Nat) (pos q : Nat), q >>> 1 ≠ 0 →
        get_bit d pos q = .ok (q &&& 1, pos, q >>> 1)) ∧
    (∀ (d : List Nat) (pos q : Nat), q >>> 1 = 0 → pos + 1 < d.length →
        get_bit d pos q =
          .ok ((d.getD pos 0 + 256 * d.getD (pos + 1) 0) &&& 1, pos + 2,
               0x8000 ||| ((d.getD pos 0 + 256 * d.getD (pos + 1) 0) >>> 1))) ∧
    (∀ w : Nat, w < 65536 →
        (∀ k, 1 ≤ k → k ≤ 15 →
            (0x8000 ||| (w >>> 1)) >>> k ≠ 0 ∧
            ((0x8000 ||| (w >>> 1)) >>> (k - 1)) &&& 1 = (w >>> k) &&& 1) ∧
        (0x8000 ||| (w >>> 1)) >>> 15 = 1 ∧
        (0x8000 ||| (w >>> 1)) >>> 16 = 0) := by
  refine ⟨fun d pos q h => ?_, fun d pos q h hlt => ?_, fun w hw => ?_⟩
  · rw [get_bit, if_neg h]
  · rw [get_bit, if_pos h, read_u16, if_neg (by omega)]
  · have hw2 : w >>> 1 < 32768 := by
      rw [Nat.shiftRight_eq_div_pow]; omega
    rw [lor_32768 _ hw2]
    have hdiv : w >>> 1 = w / 2 := by rw [Nat.shiftRight_eq_div_pow]
    rw [hdiv]
    refine ⟨fun k hk1 hk15 => ?_, by omega, by omega⟩
    simp only [Nat.shiftRight_eq_div_pow, Nat.and_one_is_mod]
    interval_cases k <;> norm_num <;> omega

/-- Claim C4 witness: the three parts of `get_bit_queue_spec` applied at
concrete inputs. -/
theorem get_bit_queue_spec_witness :
    get_bit [] 0 4 = .ok (0, 0, 2) ∧
    get_bit [0x34, 0x12] 0 0 = .ok (0, 2, 0x8000 ||| (4660 >>> 1)) ∧
    ((0x8000 ||| (4660 >>> 1)) >>> 3 ≠ 0 ∧
      ((0x8000 ||| (4660 >>> 1)) >>> 2) &&& 1 = (4660 >>> 3) &&& 1) ∧
    (0x8000 ||| (4660 >>> 1)) >>> 15 = 1 :=
  ⟨get_bit_queue_spec.1 [] 0 4 (by decide),
   get_bit_queue_spec.2.1 [0x34, 0x12] 0 0 (by decide) (by decide),
   (get_bit_queue_spec.2.2 4660 (by decide)).1 3 (by decide) (by decide),
   (get_bit_queue_spec.2.2 4660 (by decide)).2.1⟩

/-- Claim C3 counterexample (status: corrected).  A stream whose body is an
immediate EOF marker under a header declaring `decompressed_size = 5`
decompresses successfully to the empty buffer: `hsq_decompress` can return
fewer than the declared `N` bytes. -/
theorem hsq_decompress_early_eof_counterexample :
    hsq_decompress [5, 0, 0, 0, 0, 0, 0x02, 0x00, 0x00, 0x00, 0x00] = .ok [] ∧
    readLE16 [5, 0, 0, 0, 0, 0, 0x02, 0x00, 0x00, 0x00, 0x00] 0 = 5 := by
  exact ⟨rfl, rfl⟩

/-- Claim C3 amended (status: corrected).  On success `hsq_decompress`
returns *at most* `decompressed_size` bytes: any decoder overrun is
truncated to exactly `N`, but a stream whose EOF marker arrives early
yields fewer than `N` bytes. -/
theorem hsq_decompress_length_le (data out : List Nat)
    (h : hsq_decompress data = .ok out) : out.length ≤ readLE16 data 0 := by
  simp only [hsq_decompress] at h
  split at h
  · exact absurd h (by simp)
  · cases hdl : decodeLoop data (readLE16 data 0) (data.length + 2) 6 0 [] with
    | error e => rw [hdl] at h; simp at h
    | ok o =>
      rw [hdl] at h
      simp only [Except.ok.injEq] at h
      subst h
      exact le_trans (List.length_take_le _ _) (le_refl _)

/-- Claim C3 amended witness. -/
theorem hsq_decompress_length_le_witness :
    ([97, 98] : List Nat).length ≤
      readLE16 [2, 0, 0, 8, 0, 0, 0x0B, 0x00, 0x61, 0x62, 0x00, 0x00, 0x00] 0 :=
  hsq_decompress_length_le _ _ (by rfl)

/-- Claim C9 counterexample (status: corrected).  A stream whose single
back-reference has its copy source index at -1 — before position 0, i.e.
outside the bounds of output already written — decodes *successfully*
(no error of any kind): after one literal `0x41`, a short back-reference
with `offset = -2` reads `out[-1]`, which Python resolves to the last
byte written. -/
theorem hsq_decompress_oob_backref_no_error :
    hsq_decompress [3, 0, 0, 0, 0, 0, 0x21, 0x00, 0x41, 0xFE] =
      .ok [0x41, 0x41, 0x41] := rfl

/-- Claim C9 amended (status: corrected).  `hsq_decompress` performs no
bounds check on back-reference copy sources.  A source index in
`[-len(out), 0)` silently wraps (Python negative indexing) to the end of
the output already written and decoding proceeds; only an index below
`-len(out)` raises an error — a plain `IndexError`, not any dedicated
invalid-back-reference error. -/
theorem hsq_decompress_backref_wrap_semantics :
    (∀ (l : List Nat) (i : Int), -(l.length : Int) ≤ i → i < 0 →
        pyGet l i = some (l.getD (i + (l.length : Int)).toNat 0)) ∧
    (∀ (l : List Nat) (i : Int), i + (l.length : Int) < 0 → pyGet l i = none) ∧
    hsq_decompress [3, 0, 0, 0, 0, 0, 0x21, 0x00, 0x41, 0xFE] =
      .ok [0x41, 0x41, 0x41] ∧
    hsq_decompress [1, 0, 0, 0, 0, 0, 0x00, 0x00, 0xFF] = .error .indexError := by
  refine ⟨fun l i h1 h2 => ?_, fun l i h => ?_, rfl, rfl⟩
  · rw [pyGet, if_neg (by omega), if_pos (by omega)]
  · rw [pyGet, if_neg (by omega), if_neg (by omega)]

/-- Claim C9 amended witness. -/
theorem hsq_decompress_backref_wrap_semantics_witness :
    pyGet [7] (-1) = some 7 ∧ pyGet [] (-1) = none :=
  ⟨hsq_decompress_backref_wrap_semantics.1 [7] (-1) (by decide) (by decide),
   hsq_decompress_backref_wrap_semantics.2.1 [] (-1) (by decide)⟩

/-! ## C10: header noninterference -/

theorem read_u8_pos {d : List Nat} {pos v pos' : Nat}
    (h : read_u8 d pos = .ok (v, pos')) : pos' = pos + 1 := by
  rw [read_u8] at h
  split at h
  · exact absurd h (by simp)
  · simp only [Except.ok.injEq, Prod.mk.injEq] at h
    omega

theorem read_u16_pos {d : List Nat} {pos v pos' : Nat}
    (h : read_u16 d pos = .ok (v, pos')) : pos' = pos + 2 := by
  rw [read_u16] at h
  split at h
  · exact absurd h (by simp)
  · simp only [Except.ok.injEq, Prod.mk.injEq] at h
    omega

theorem get_bit_pos_ge {d : List Nat} {pos q b pos' q' : Nat}
    (h : get_bit d pos q = .ok (b, pos', q')) : pos ≤ pos' := by
  rw [get_bit] at h
  split at h
  · cases hr : read_u16 d pos with
    | error e => rw [hr] at h; exact absurd h (by simp)
    | ok t =>
      rw [hr] at h
      simp only [Except.ok.injEq, Prod.mk.injEq] at h
      have := read_u16_pos hr
      omega
  · simp only [Except.ok.injEq, Prod.mk.injEq] at h
    omega

theorem read_u8_congr {d1 d2 : List Nat} (hlen : d1.length = d2.length)
    (hag : ∀ i, 6 ≤ i → d1.getD i 0 = d2.getD i 0) {pos : Nat} (hpos : 6 ≤ pos) :
    read_u8 d1 pos = read_u8 d2 pos := by
  rw [read_u8, read_u8, hlen, hag pos hpos]

theorem read_u16_congr {d1 d2 : List Nat} (hlen : d1.length = d2.length)
    (hag : ∀ i, 6 ≤ i → d1.getD i 0 = d2.getD i 0) {pos : Nat} (hpos : 6 ≤ pos) :
    read_u16 d1 pos = read_u16 d2 pos := by
  rw [read_u16, read_u16, hlen, hag pos hpos, hag (pos + 1) (by omega)]

theorem get_bit_congr {d1 d2 : List Nat} (hlen : d1.length = d2.length)
    (hag : ∀ i, 6 ≤ i → d1.getD i 0 = d2.getD i 0) {pos : Nat} (q : Nat)
    (hpos : 6 ≤ pos) : get_bit d1 pos q = get_bit d2 pos q := by
  rw [get_bit, get_bit, read_u16_congr hlen hag hpos]

theorem decodeLoop_congr {d1 d2 : List Nat} (hlen : d1.length = d2.length)
    (hag : ∀ i, 6 ≤ i → d1.getD i 0 = d2.getD i 0) (size : Nat) :
    ∀ fuel pos queue out, 6 ≤ pos →
      decodeLoop d1 size fuel pos queue out = decodeLoop d2 size fuel pos queue out := by
  intro fuel
  induction fuel with
  | zero => intro pos q out _; rfl
  | succ fuel ih =>
    intro pos q out hpos
    simp only [decodeLoop]
    rw [← get_bit_congr hlen hag q hpos]
    cases hgb : get_bit d1 pos q with
    | error e => rfl
    | ok t =>
      obtain ⟨b, pos1, q1⟩ := t
      have hp1 : 6 ≤ pos1 := le_trans hpos (get_bit_pos_ge hgb)
      by_cases hb : b ≠ 0
      · simp only [if_pos hb]
        by_cases hfull : out.length ≥ size
        · simp only [if_pos hfull]
        · simp only [if_neg hfull]
          rw [← read_u8_congr hlen hag hp1]
          cases hr8 : read_u8 d1 pos1 with
          | error e => rfl
          | ok t2 =>
            obtain ⟨v, pos2⟩ := t2
            exact ih pos2 q1 (out ++ [v]) (by have := read_u8_pos hr8; omega)
      · simp only [if_neg hb]
        rw [← get_bit_congr hlen hag q1 hp1]
        cases hgb2 : get_bit d1 pos1 q1 with
        | error e => rfl
        | ok t2 =>
          obtain ⟨b2, pos2, q2⟩ := t2
          have hp2 : 6 ≤ pos2 := le_trans hp1 (get_bit_pos_ge hgb2)
          by_cases hb2 : b2 ≠ 0
          · simp only [if_pos hb2]
            rw [← read_u16_congr hlen hag hp2]
            cases hr16 : read_u16 d1 pos2 with
            | error e => rfl
            | ok t3 =>
              obtain ⟨w, pos3⟩ := t3
              have hp3 : 6 ≤ pos3 := by have := read_u16_pos hr16; omega
              by_cases hc : w &&& 0x07 = 0
              · simp only [if_pos hc]
                rw [← read_u8_congr hlen hag hp3]
                cases hr8 : read_u8 d1 pos3 with
                | error e => rfl
                | ok t4 =>
                  obtain ⟨c2, pos4⟩ := t4
                  have hp4 : 6 ≤ pos4 := by have := read_u8_pos hr8; omega
                  by_cases hc2 : c2 = 0
                  · simp only [if_pos hc2]
                  · simp only [if_neg hc2]
                    cases copyN (c2 + 2) out (((w >>> 3 : Nat) : Int) - 8192) with
                    | error e => rfl
                    | ok out2 => exact ih pos4 q2 out2 hp4
              · simp only [if_neg hc]
                cases copyN ((w &&& 0x07) + 2) out (((w >>> 3 : Nat) : Int) - 8192) with
                | error e => rfl
                | ok out2 => exact ih pos3 q2 out2 hp3
          · simp only [if_neg hb2]
            rw [← get_bit_congr hlen hag q2 hp2]
            cases hgb3 : get_bit d1 pos2 q2 with
            | error e => rfl
            | ok t3 =>
              obtain ⟨b0, pos3, q3⟩ := t3
              have hp3 : 6 ≤ pos3 := le_trans hp2 (get_bit_pos_ge hgb3)
              dsimp only
              rw [← get_bit_congr hlen hag q3 hp3]
              cases hgb4 : get_bit d1 pos3 q3 with
              | error e => rfl
              | ok t4 =>
                obtain ⟨b1, pos4, q4⟩ := t4
                have hp4 : 6 ≤ pos4 := le_trans hp3 (get_bit_pos_ge hgb4)
                dsimp only
                rw [← read_u8_congr hlen hag hp4]
                cases hr8 : read_u8 d1 pos4 with
                | error e => rfl
                | ok t5 =>
                  obtain ⟨bb, pos5⟩ := t5
                  have hp5 : 6 ≤ pos5 := by have := read_u8_pos hr8; omega
                  dsimp only
                  cases copyN (2 * b0 + b1 + 2) out ((bb : Int) - 256) with
                  | error e => rfl
                  | ok out2 => exact ih pos5 q4 out2 hp5

/-- Claim C10 (status: confirmed).  `hsq_decompress` never uses header bytes
2 through 5: any two inputs of equal length agreeing on bytes 0-1 and on
everything from offset 6 onward decompress identically (same output or
same error), so no checksum validation is performed on decode. -/
theorem hsq_decompress_header_noninterference (d1 d2 : List Nat)
    (hlen : d1.length = d2.length) (h6 : 6 ≤ d1.length)
    (h01 : d1.take 2 = d2.take 2) (htail : d1.drop 6 = d2.drop 6) :
    hsq_decompress d1 = hsq_decompress d2 := by
  have hag : ∀ i, 6 ≤ i → d1.getD i 0 = d2.getD i 0 := by
    intro i hi
    have h := congrArg (fun l => List.getD l (i - 6) 0) htail
    simp only [List.getD_eq_getElem?_getD, List.getElem?_drop] at h
    have hadd : 6 + (i - 6) = i := by omega
    rw [hadd] at h
    rw [List.getD_eq_getElem?_getD, List.getD_eq_getElem?_getD]
    exact h
  have htake : ∀ i, i < 2 → d1.getD i 0 = d2.getD i 0 := by
    intro i hi
    have h := congrArg (fun l => List.getD l i 0) h01
    simp only [List.getD_eq_getElem?_getD] at h
    rw [List.getElem?_take_of_lt hi, List.getElem?_take_of_lt hi] at h
    rw [List.getD_eq_getElem?_getD, List.getD_eq_getElem?_getD]
    exact h
  have hsize : readLE16 d1 0 = readLE16 d2 0 := by
    rw [readLE16, readLE16, htake 0 (by omega), htake 1 (by omega)]
  rw [hsq_decompress, hsq_decompress, if_neg (by omega), if_neg (by omega)]
  simp only
  rw [← hsize, ← hlen, decodeLoop_congr hlen hag (readLE16 d1 0) (d1.length + 2) 6 0 [] (by omega)]

/-- Claim C10 witness: two concrete streams differing exactly in header bytes
2-5 decompress to the same output. -/
theorem hsq_decompress_header_noninterference_witness :
    hsq_decompress [2, 0, 0, 8, 0, 0, 0x0B, 0x00, 0x61, 0x62, 0x00, 0x00, 0x00] =
      hsq_decompress [2, 0, 9, 9, 9, 9, 0x0B, 0x00, 0x61, 0x62, 0x00, 0x00, 0x00] :=
  hsq_decompress_header_noninterference _ _ (by decide) (by decide) (by decide) (by decide)

end ReDune
